import Mathlib

/-!
Verification of the codezoom hierarchical dependency-aggregation engine.

This file gives a shallow embedding, in Lean 4, of the core of the codezoom
repository: the namespace tree builder, the bottom-up edge aggregator, the
cross-root edge projector, the cycle detector (Tarjan), the symbol handling,
and the hierarchy write-back step.  Each definition is translated from the
Python source (src/codezoom/...), and theorems settle the specification
claims against those definitions.

Conventions used throughout:
- Python str is String; Python sets of identifiers are Finset String while an
  extractor is building raw data, and sorted lists once written into NodeData.
- Python dict-of-node-records (the defaultdict used by
  _build_hierarchical_data) is a pair of an explicit key set and a total
  function returning the defaultdict default for absent keys.
- Python s.startswith(p) is the startswith function below.
- while-loops are fueled recursive functions returning Option; a result of
  some means the loop terminated within the given fuel.
-/

/-- Python s.startswith(pre): byte/character-wise prefix test. -/
def startswith (s pre : String) : Prop := pre.data <+: s.data

instance (s pre : String) : Decidable (startswith s pre) := by
  unfold startswith; infer_instance

/-- Boolean form of startswith, used inside executable definitions. -/
def startswithB (s pre : String) : Bool := pre.data.isPrefixOf s.data

theorem startswithB_iff (s pre : String) : startswithB s pre = true ↔ startswith s pre := by
  simp [startswithB, startswith, List.isPrefixOf_iff_prefix]

/-! ### Python string and set primitives

The embedding uses structurally recursive definitions (kernel-evaluable)
for Python s.split("."), ".".join(parts) and sorted(...). -/

/-- Python s.split(".") on the character list: an empty string yields one
empty segment, and each dot starts a new segment. -/
def splitChars : List Char → List (List Char)
  | [] => [[]]
  | c :: cs =>
    match splitChars cs with
    | [] => []
    | seg :: rest => if c = '.' then [] :: seg :: rest else (c :: seg) :: rest

/-- Python s.split("."). -/
def splitDot (s : String) : List String := (splitChars s.data).map String.mk

/-- Python ".".join(parts). -/
def joinDot : List String → String
  | [] => ""
  | [s] => s
  | s :: s₂ :: rest => s ++ "." ++ joinDot (s₂ :: rest)

/-- Lexicographic code-point comparison of character lists, the order Python
uses to compare strings.  Structural, hence kernel-evaluable (the core
library's String order goes through a byte iterator defined by well-founded
recursion, which the kernel cannot evaluate). -/
def charListLe : List Char → List Char → Bool
  | [], _ => true
  | _ :: _, [] => false
  | a :: as, b :: bs =>
    if a.toNat < b.toNat then true
    else if b.toNat < a.toNat then false
    else charListLe as bs

/-- Python string comparison a <= b. -/
def strLe (a b : String) : Bool := charListLe a.data b.data

theorem charListLe_total (a : List Char) :
    ∀ b, charListLe a b = true ∨ charListLe b a = true := by
  induction a with
  | nil => intro b; left; rfl
  | cons x xs ih =>
    intro b
    cases b with
    | nil => right; rfl
    | cons y ys =>
      rcases Nat.lt_trichotomy x.toNat y.toNat with h | h | h
      · left; simp [charListLe, h]
      · have hxy : ¬ x.toNat < y.toNat := by omega
        have hyx : ¬ y.toNat < x.toNat := by omega
        rcases ih ys with h' | h'
        · left; simp [charListLe, hxy, hyx, h']
        · right; simp [charListLe, hxy, hyx, h']
      · right; simp [charListLe, h]

theorem char_eq_of_toNat_eq {a b : Char} (h : a.toNat = b.toNat) : a = b := by
  have hv : a.val = b.val := by
    unfold Char.toNat at h
    exact UInt32.toNat.inj h
  exact Char.eq_of_val_eq hv

theorem charListLe_antisymm : ∀ a b : List Char,
    charListLe a b = true → charListLe b a = true → a = b := by
  intro a
  induction a with
  | nil =>
    intro b h1 h2
    cases b with
    | nil => rfl
    | cons y ys => simp [charListLe] at h2
  | cons x xs ih =>
    intro b h1 h2
    cases b with
    | nil => simp [charListLe] at h1
    | cons y ys =>
      by_cases hxy : x.toNat < y.toNat
      · have : ¬ y.toNat < x.toNat := by omega
        simp [charListLe, hxy, this] at h2
      · by_cases hyx : y.toNat < x.toNat
        · simp [charListLe, hxy, hyx] at h1
        · have hx : x = y := char_eq_of_toNat_eq (by omega)
          subst hx
          simp [charListLe, hxy] at h1 h2
          rw [ih ys h1 h2]

theorem charListLe_trans : ∀ a b c : List Char,
    charListLe a b = true → charListLe b c = true → charListLe a c = true := by
  intro a
  induction a with
  | nil => intro b c _ _; rfl
  | cons x xs ih =>
    intro b c h1 h2
    cases b with
    | nil => simp [charListLe] at h1
    | cons y ys =>
      cases c with
      | nil => simp [charListLe] at h2
      | cons z zs =>
        rcases Nat.lt_trichotomy x.toNat y.toNat with hxy | hxy | hxy <;>
          rcases Nat.lt_trichotomy y.toNat z.toNat with hyz | hyz | hyz
        · simp [charListLe]; omega
        · simp [charListLe]; omega
        · simp [charListLe, hyz, show ¬ y.toNat < z.toNat by omega] at h2
        · simp [charListLe]; omega
        · have hxz : ¬ x.toNat < z.toNat := by omega
          have hzx : ¬ z.toNat < x.toNat := by omega
          simp [charListLe, show ¬ x.toNat < y.toNat by omega,
            show ¬ y.toNat < x.toNat by omega] at h1
          simp [charListLe, show ¬ y.toNat < z.toNat by omega,
            show ¬ z.toNat < y.toNat by omega] at h2
          simp [charListLe, hxz, hzx]
          exact ih ys zs h1 h2
        · simp [charListLe, hyz, show ¬ y.toNat < z.toNat by omega] at h2
        · simp [charListLe, hxy, show ¬ x.toNat < y.toNat by omega] at h1
        · simp [charListLe, hxy, show ¬ x.toNat < y.toNat by omega] at h1
        · simp [charListLe, hxy, show ¬ x.toNat < y.toNat by omega] at h1

theorem strLe_total (a b : String) : strLe a b = true ∨ strLe b a = true :=
  charListLe_total a.data b.data

theorem strLe_antisymm {a b : String} (h1 : strLe a b = true) (h2 : strLe b a = true) :
    a = b := by
  cases a; cases b
  exact congrArg String.mk (charListLe_antisymm _ _ h1 h2)

theorem strLe_trans {a b c : String} (h1 : strLe a b = true) (h2 : strLe b c = true) :
    strLe a c = true :=
  charListLe_trans a.data b.data c.data h1 h2

/-- Insert a string into an ascending list, keeping it ascending. -/
def insortStr (s : String) : List String → List String
  | [] => [s]
  | t :: ts => if strLe s t then s :: t :: ts else t :: insortStr s ts

/-- Python sorted(...) on a list of strings (insertion sort; ascending). -/
def sortStrs (l : List String) : List String := l.foldr insortStr []

theorem mem_insortStr (x s : String) (l : List String) :
    x ∈ insortStr s l ↔ x = s ∨ x ∈ l := by
  induction l with
  | nil => simp [insortStr]
  | cons t ts ih =>
    by_cases h : strLe s t = true
    · simp [insortStr, h]
    · simp [insortStr, h, ih]
      tauto

theorem insortStr_left_comm :
    ∀ (a b : String) (l : List String),
      insortStr a (insortStr b l) = insortStr b (insortStr a l) := by
  intro a b l
  induction l with
  | nil =>
    by_cases hab : strLe a b = true <;> by_cases hba : strLe b a = true
    · have h : a = b := strLe_antisymm hab hba
      subst h; rfl
    · simp [insortStr, hab, hba]
    · simp [insortStr, hab, hba]
    · exact absurd (strLe_total a b) (by tauto)
  | cons t ts ih =>
    by_cases hat : strLe a t = true <;> by_cases hbt : strLe b t = true
    · by_cases hab : strLe a b = true <;> by_cases hba : strLe b a = true
      · have h : a = b := strLe_antisymm hab hba
        subst h; rfl
      · simp [insortStr, hab, hba, hat, hbt]
      · simp [insortStr, hab, hba, hat, hbt]
      · exact absurd (strLe_total a b) (by tauto)
    · have hba : ¬ strLe b a = true := fun hc => hbt (strLe_trans hc hat)
      simp [insortStr, hat, hbt, hba]
    · have hab : ¬ strLe a b = true := fun hc => hat (strLe_trans hc hbt)
      simp [insortStr, hat, hbt, hab]
    · simp [insortStr, hat, hbt, ih]

instance : LeftCommutative insortStr := ⟨insortStr_left_comm⟩

/-- Sorting a Finset of strings into an ascending list, by folding the
insertion step over the underlying multiset. -/
def finsort (f : Finset String) : List String :=
  Multiset.foldr insortStr [] f.val

theorem mem_foldr_insortStr (x : String) (m : Multiset String) :
    x ∈ Multiset.foldr insortStr [] m ↔ x ∈ m := by
  induction m using Multiset.induction_on with
  | empty => simp
  | cons a s ih => simp [Multiset.foldr_cons, mem_insortStr, ih]

theorem mem_finsort (x : String) (f : Finset String) : x ∈ finsort f ↔ x ∈ f := by
  unfold finsort
  rw [mem_foldr_insortStr]
  exact Finset.mem_val

/-- One raw node record of the hierarchy defaultdict in
_build_hierarchical_data: children, imports_from and imports_to, each a
Python set of identifiers. -/
structure RawNode where
  children : Finset String
  imports_to : Finset String
  imports_from : Finset String
  deriving DecidableEq

/-- The defaultdict default value: all three sets empty. -/
def RawNode.empty : RawNode := ⟨∅, ∅, ∅⟩

instance : Inhabited RawNode := ⟨RawNode.empty⟩

/-- The hierarchy defaultdict of _build_hierarchical_data: the set of keys
created so far, plus a total lookup function that returns the default record
for keys not yet created (mirroring defaultdict access). -/
structure Hier where
  dom : Finset String
  node : String → RawNode

/-- The state of the hierarchy dict right after the line
hierarchy[root_id] = {...}: only the root key exists and every record is
empty. -/
def Hier.init (root_id : String) : Hier :=
  ⟨{root_id}, fun _ => RawNode.empty⟩

/-- Mutating access hierarchy[k] followed by an in-place update of the
record: defaultdict semantics create the key and the update rewrites the
record at that key only. -/
def updNode (h : Hier) (k : String) (f : RawNode → RawNode) : Hier :=
  ⟨insert k h.dom, Function.update h.node k (f (h.node k))⟩

/-- Bare defaultdict access hierarchy[k] ("ensure exists" in the source):
creates the key, leaves every record unchanged. -/
def ensure (h : Hier) (k : String) : Hier :=
  ⟨insert k h.dom, h.node⟩

@[simp] theorem updNode_node (h : Hier) (k : String) (f : RawNode → RawNode) (x : String) :
    (updNode h k f).node x = if x = k then f (h.node k) else h.node x := by
  simp [updNode, Function.update]

@[simp] theorem ensure_node (h : Hier) (k x : String) :
    (ensure h k).node x = h.node x := rfl

/-! ### Longest common leading-segment computation

Python (package_hierarchy._build_hierarchical_data):
  parts_list = [p.split(".") for p in sorted(all_packages)]
  common = []
  for segments in zip(*parts_list):
      if len(set(segments)) == 1: common.append(segments[0])
      else: break
zip truncates at the shortest list and the loop stops at the first position
where not all segments agree; this is the simultaneous longest common prefix
of all the part lists, computed here by structural recursion on the first
list. -/

def zipCommon (first : List String) (rest : List (List String)) : List String :=
  match first with
  | [] => []
  | a :: as =>
    if rest.all (fun p => p.head? = some a) then
      a :: zipCommon as (rest.map (fun p => p.tail))
    else []

theorem prefix_cons_cons {a : String} {l p : List String} (h : l <+: p) :
    a :: l <+: a :: p := by
  obtain ⟨t, ht⟩ := h
  exact ⟨t, by simp [ht]⟩

/-- The common segment list computed by zipCommon is a prefix of the first
identifier's segment list. -/
theorem zipCommon_prefix_first (first : List String) (rest : List (List String)) :
    zipCommon first rest <+: first := by
  induction first generalizing rest with
  | nil => simp [zipCommon]
  | cons a as ih =>
    unfold zipCommon
    by_cases hall : rest.all (fun p => p.head? = some a)
    · simpa [hall] using prefix_cons_cons (a := a) (ih (rest.map (fun p => p.tail)))
    · simp [hall]

/-- The common segment list computed by zipCommon is a prefix of every
segment list among the rest. -/
theorem zipCommon_prefix_rest (first : List String) (rest : List (List String))
    (p : List String) (hp : p ∈ rest) : zipCommon first rest <+: p := by
  induction first generalizing rest p with
  | nil => simp [zipCommon]
  | cons a as ih =>
    unfold zipCommon
    by_cases hall : rest.all (fun p => p.head? = some a)
    · simp only [hall, if_true]
      have hhead : p.head? = some a := by
        have := List.all_eq_true.mp hall p hp
        simpa using this
      obtain ⟨q, rfl⟩ : ∃ q, p = a :: q := by
        cases p with
        | nil => simp at hhead
        | cons b bs =>
          refine ⟨bs, ?_⟩
          have hb : b = a := by simpa using hhead
          simp [hb]
      have htail : q ∈ rest.map (fun p => p.tail) :=
        List.mem_map.mpr ⟨a :: q, hp, rfl⟩
      exact prefix_cons_cons (ih (rest.map (fun p => p.tail)) q htail)
    · simp [hall]

/-! ### Tree registration

Python (package_hierarchy._build_hierarchical_data, also
gradle/source_hierarchy.py):
  for pkg in all_packages:
      parts = pkg.split(".")
      for i in range(len(common), len(parts)):
          parent = ".".join(parts[:i]) if i > 0 else root_id
          child = ".".join(parts[: i + 1])
          if parent != child:
              hierarchy[parent]["children"].add(child)
          hierarchy[child]  # ensure exists
-/

/-- One step of the inner registration loop, at segment depth i. -/
def registerStep (root_id : String) (parts : List String) (h : Hier) (i : Nat) : Hier :=
  let parent := if i > 0 then joinDot (parts.take i) else root_id
  let child := joinDot (parts.take (i + 1))
  let h' := if parent ≠ child then
      updNode h parent (fun n => { n with children := insert child n.children })
    else h
  ensure h' child

/-- The inner registration loop for one package. -/
def registerPkg (common : List String) (root_id : String) (h : Hier) (pkg : String) : Hier :=
  let parts := splitDot pkg
  (List.range' common.length (parts.length - common.length)).foldl
    (registerStep root_id parts) h

/-- The outer registration loop over all packages. -/
def registerAll (common : List String) (root_id : String) (pkgs : List String) : Hier :=
  pkgs.foldl (registerPkg common root_id) (Hier.init root_id)

/-! ### Edge recording

Python:
  for src, tgt in edges:
      if src != tgt:
          hierarchy[src]["imports_to"].add(tgt)
          hierarchy[tgt]["imports_from"].add(src)
-/

def recordEdge (h : Hier) (e : String × String) : Hier :=
  if e.1 ≠ e.2 then
    updNode (updNode h e.1 (fun n => { n with imports_to := insert e.2 n.imports_to }))
      e.2 (fun n => { n with imports_from := insert e.1 n.imports_from })
  else h

def recordEdges (h : Hier) (edges : List (String × String)) : Hier :=
  edges.foldl recordEdge h

/-! ### Iterative post-order traversal

Python:
  order = []; stack = [root_id]; visited = set()
  while stack:
      node_id = stack[-1]
      children = hierarchy[node_id]["children"]
      unvisited = [c for c in children if c not in visited]
      if unvisited: stack.extend(unvisited)
      else:
          stack.pop()
          if node_id not in visited:
              visited.add(node_id); order.append(node_id)
The Python stack keeps its top at the end; here the head of the list is the
top.  Iteration over the Python set of children is in unspecified order; the
embedding iterates in sorted order (one admissible order).  The while loop is
fueled; some order means it terminated within the fuel. -/

def postorderLoop (children : String → Finset String) :
    Nat → List String → Finset String → List String → Option (List String)
  | 0, _, _, _ => none
  | _ + 1, [], _, order => some order
  | fuel + 1, top :: rest, visited, order =>
    let unvisited := (finsort (children top)).filter (fun c => c ∉ visited)
    if unvisited ≠ [] then
      postorderLoop children fuel (unvisited.reverse ++ top :: rest) visited order
    else if top ∉ visited then
      postorderLoop children fuel rest (insert top visited) (order ++ [top])
    else
      postorderLoop children fuel rest visited order

def postorder (children : String → Finset String) (root_id : String) (fuel : Nat) :
    Option (List String) :=
  postorderLoop children fuel [root_id] ∅ []

/-! ### Bottom-up edge aggregation

Python (package_hierarchy.py lines 752-765, identically in
python/module_hierarchy.py lines 159-172 and gradle/source_hierarchy.py):
  for node_id in order:
      node = hierarchy[node_id]
      if not node["children"]:
          node["imports_to"] = {imp for imp in node["imports_to"]
                                if not imp.startswith(node_id)}
      else:
          all_to = set(node["imports_to"]); all_from = set(node["imports_from"])
          for child_id in node["children"]:
              all_to.update(hierarchy[child_id]["imports_to"])
              all_from.update(hierarchy[child_id]["imports_from"])
          node["imports_to"] = {imp for imp in all_to
                                if not imp.startswith(node_id)}
          node["imports_from"] = all_from
-/

def aggStep (h : Hier) (node_id : String) : Hier :=
  let n := h.node node_id
  if n.children = ∅ then
    updNode h node_id (fun n =>
      { n with imports_to := n.imports_to.filter (fun imp => ¬ startswith imp node_id) })
  else
    let all_to := n.imports_to ∪ n.children.biUnion (fun c => (h.node c).imports_to)
    let all_from := n.imports_from ∪ n.children.biUnion (fun c => (h.node c).imports_from)
    updNode h node_id (fun n =>
      { n with imports_to := all_to.filter (fun imp => ¬ startswith imp node_id),
               imports_from := all_from })

def aggregate (h : Hier) (order : List String) : Hier :=
  order.foldl aggStep h

/-- A processing order is valid for a children relation when it has no
duplicates and every child of a listed node occurs strictly earlier in the
order.  The iterative post-order traversal of the source produces such
orders: a node is appended only once all its children are in the visited
set, which equals the set of already-appended nodes. -/
def ValidOrder (children : String → Finset String) (order : List String) : Prop :=
  order.Nodup ∧
    ∀ i, i < order.length → children (order.getD i "") ⊆ (order.take i).toFinset

instance (children : String → Finset String) (order : List String) :
    Decidable (ValidOrder children order) := by
  unfold ValidOrder; infer_instance

/-! Basic facts about aggregation. -/

theorem aggStep_node_self (h : Hier) (m : String) :
    (aggStep h m).node m =
      if (h.node m).children = ∅ then
        { h.node m with
          imports_to := (h.node m).imports_to.filter (fun imp => ¬ startswith imp m) }
      else
        { h.node m with
          imports_to := ((h.node m).imports_to ∪ (h.node m).children.biUnion
              (fun c => (h.node c).imports_to)).filter (fun imp => ¬ startswith imp m),
          imports_from := (h.node m).imports_from ∪ (h.node m).children.biUnion
              (fun c => (h.node c).imports_from) } := by
  unfold aggStep
  by_cases hc : (h.node m).children = ∅ <;> simp [hc]

theorem aggStep_node_ne (h : Hier) (m x : String) (hx : x ≠ m) :
    (aggStep h m).node x = h.node x := by
  unfold aggStep
  by_cases hc : (h.node m).children = ∅ <;> simp [hc, hx]

theorem aggStep_children (h : Hier) (m x : String) :
    ((aggStep h m).node x).children = (h.node x).children := by
  unfold aggStep
  by_cases hc : (h.node m).children = ∅ <;>
    by_cases hx : x = m <;> simp [hc, hx]

theorem aggregate_node_not_mem (h : Hier) (order : List String) (x : String)
    (hx : x ∉ order) : (aggregate h order).node x = h.node x := by
  induction order generalizing h with
  | nil => rfl
  | cons m l ih =>
    have hxm : x ≠ m := fun hmm => hx (hmm ▸ List.mem_cons_self m l)
    have hxl : x ∉ l := fun hmem => hx (List.mem_cons_of_mem m hmem)
    calc (aggregate h (m :: l)).node x = (aggregate (aggStep h m) l).node x := rfl
      _ = (aggStep h m).node x := ih (aggStep h m) hxl
      _ = h.node x := aggStep_node_ne h m x hxm

theorem aggregate_children (h : Hier) (order : List String) (x : String) :
    ((aggregate h order).node x).children = (h.node x).children := by
  induction order generalizing h with
  | nil => rfl
  | cons m l ih =>
    calc ((aggregate h (m :: l)).node x).children
        = ((aggregate (aggStep h m) l).node x).children := rfl
      _ = ((aggStep h m).node x).children := ih (aggStep h m)
      _ = (h.node x).children := aggStep_children h m x

theorem aggregate_append (h : Hier) (l₁ l₂ : List String) :
    aggregate h (l₁ ++ l₂) = aggregate (aggregate h l₁) l₂ :=
  List.foldl_append ..

/-- Sanity check for the lcp computation. -/
example : zipCommon ["a", "b"] [["a", "b", "s"], ["a", "bc"]] = ["a"] := by decide

/-! ### The full _build_hierarchical_data pipeline (java/package_hierarchy.py)

The Python function collects all packages from the edge list and the
filesystem scan, computes the common-prefix root, registers the tree,
records edges, builds the post-order and aggregates.  Iteration over the
all_packages set is in unspecified order in Python; the embedding iterates
the sorted list (the registration result is order-independent, as only
insertions occur).  An empty package set makes the Python function return
without building anything; the embedding returns none in that case, and also
when the traversal fuel runs out. -/

/-- Python set add: insert only when absent (the list models the set; its
order never matters observably, since the set is only read sorted). -/
def addPkg (l : List String) (p : String) : List String :=
  if p ∈ l then l else p :: l

def collectPackages (edges : List (String × String)) (fsPkgs : List String) :
    List String :=
  fsPkgs.foldl addPkg (edges.foldl (fun s e => addPkg (addPkg s e.1) e.2) [])

def commonOf (sortedPkgs : List String) : List String :=
  match sortedPkgs with
  | [] => []
  | p :: rest => zipCommon (splitDot p) (rest.map (fun q => splitDot q))

def rootOf (sortedPkgs : List String) (common : List String) : String :=
  if common ≠ [] then joinDot common else sortedPkgs.headD ""

def buildHierarchicalData (fuel : Nat) (edges : List (String × String))
    (fsPkgs : List String) : Option Hier :=
  let all_packages := collectPackages edges fsPkgs
  if all_packages = [] then none
  else
    let sortedPkgs := sortStrs all_packages
    let common := commonOf sortedPkgs
    let root_id := rootOf sortedPkgs common
    let h := recordEdges (registerAll common root_id sortedPkgs) edges
    match postorder (fun x => (h.node x).children) root_id fuel with
    | none => none
    | some order => some (aggregate h order)

/-! ### Characterization of the aggregation pass -/

theorem validOrder_split (children : String → Finset String) (order : List String)
    (hv : ValidOrder children order) (n : String) (hn : n ∈ order) :
    ∃ l₁ l₂, order = l₁ ++ n :: l₂ ∧ n ∉ l₁ ∧ n ∉ l₂ ∧
      ∀ c ∈ children n, c ∈ l₁ := by
  obtain ⟨l₁, l₂, rfl⟩ := List.append_of_mem hn
  have hnodup := hv.1
  rw [List.nodup_append] at hnodup
  obtain ⟨h₁, h₂, hdisj⟩ := hnodup
  refine ⟨l₁, l₂, rfl, ?_, ?_, ?_⟩
  · intro hmem
    exact hdisj hmem (List.mem_cons_self n l₂)
  · exact (List.nodup_cons.mp h₂).1
  · intro c hc
    have hlen : l₁.length < (l₁ ++ n :: l₂).length := by
      simp [List.length_append]
    have hget : (l₁ ++ n :: l₂).getD l₁.length "" = n := by
      simp [List.getD, List.getElem?_append_right (Nat.le_refl l₁.length)]
    have htake : (l₁ ++ n :: l₂).take l₁.length = l₁ := by
      simp [List.take_append_of_le_length (Nat.le_refl l₁.length)]
    have := hv.2 l₁.length hlen
    rw [hget, htake] at this
    exact List.mem_toFinset.mp (this hc)

/-- After the aggregation pass, a processed internal node's imports_to is
the union of its raw imports_to and its children's aggregated imports_to,
filtered by the raw string-prefix test against the node's own identifier,
and its imports_from is that union unfiltered. -/
theorem aggregate_internal_spec (h : Hier) (order : List String)
    (hv : ValidOrder (fun x => (h.node x).children) order) (n : String)
    (hn : n ∈ order) (hint : (h.node n).children ≠ ∅) :
    ((aggregate h order).node n).imports_to =
      ((h.node n).imports_to ∪ (h.node n).children.biUnion
          (fun c => ((aggregate h order).node c).imports_to)).filter
        (fun imp => ¬ startswith imp n) ∧
    ((aggregate h order).node n).imports_from =
      (h.node n).imports_from ∪ (h.node n).children.biUnion
          (fun c => ((aggregate h order).node c).imports_from) := by
  obtain ⟨l₁, l₂, horder, hn₁, hn₂, hchild⟩ :=
    validOrder_split (fun x => (h.node x).children) order hv n hn
  have hmid : (aggregate h l₁).node n = h.node n := aggregate_node_not_mem h l₁ n hn₁
  have hstepform : aggregate h order = aggregate (aggStep (aggregate h l₁) n) l₂ := by
    rw [horder, aggregate_append]; rfl
  have hfinal_n : (aggregate h order).node n = (aggStep (aggregate h l₁) n).node n := by
    rw [hstepform]
    exact aggregate_node_not_mem _ l₂ n hn₂
  have hfinal_c : ∀ c ∈ (h.node n).children,
      (aggregate h order).node c = (aggregate h l₁).node c := by
    intro c hc
    have hcl₁ : c ∈ l₁ := hchild c hc
    have hcn : c ≠ n := fun hcc => hn₁ (hcc ▸ hcl₁)
    have hcl₂ : c ∉ l₂ := by
      intro hmem
      have := hv.1
      rw [horder, List.nodup_append] at this
      exact this.2.2 hcl₁ (List.mem_cons_of_mem n hmem)
    rw [hstepform]
    calc (aggregate (aggStep (aggregate h l₁) n) l₂).node c
        = (aggStep (aggregate h l₁) n).node c := aggregate_node_not_mem _ l₂ c hcl₂
      _ = (aggregate h l₁).node c := aggStep_node_ne _ n c hcn
  rw [hfinal_n, aggStep_node_self, hmid, if_neg hint]
  constructor
  · simp only
    congr 1
    congr 1
    exact Finset.biUnion_congr rfl (fun c hc => by rw [hfinal_c c hc])
  · simp only
    congr 1
    exact Finset.biUnion_congr rfl (fun c hc => by rw [hfinal_c c hc])

/-- After the aggregation pass, a processed leaf node's imports_to is its
raw imports_to filtered by the raw string-prefix test, and its imports_from
is untouched. -/
theorem aggregate_leaf_spec (h : Hier) (order : List String)
    (hv : ValidOrder (fun x => (h.node x).children) order) (n : String)
    (hn : n ∈ order) (hleaf : (h.node n).children = ∅) :
    ((aggregate h order).node n).imports_to =
      (h.node n).imports_to.filter (fun imp => ¬ startswith imp n) ∧
    ((aggregate h order).node n).imports_from = (h.node n).imports_from := by
  obtain ⟨l₁, l₂, horder, hn₁, hn₂, _⟩ :=
    validOrder_split (fun x => (h.node x).children) order hv n hn
  have hmid : (aggregate h l₁).node n = h.node n := aggregate_node_not_mem h l₁ n hn₁
  have hfinal_n : (aggregate h order).node n = (aggStep (aggregate h l₁) n).node n := by
    rw [horder, aggregate_append]
    exact aggregate_node_not_mem _ l₂ n hn₂
  rw [hfinal_n, aggStep_node_self, hmid, if_pos hleaf]
  exact ⟨rfl, rfl⟩

theorem startswith_refl (s : String) : startswith s s := List.prefix_refl _

/-- Any node processed by the aggregation pass ends with its own identifier
absent from its imports_to: both the leaf and the internal branch write
imports_to through a filter dropping every target the node's identifier is a
string prefix of, which includes the identifier itself. -/
theorem aggregate_self_not_mem_imports_to (h : Hier) (order : List String) (n : String) :
    n ∈ order → n ∉ ((aggregate h order).node n).imports_to := by
  induction order using List.reverseRecOn with
  | nil => intro hn; simp at hn
  | append_singleton l m ih =>
    intro hn
    have hform : aggregate h (l ++ [m]) = aggStep (aggregate h l) m := by
      rw [aggregate_append]; rfl
    rw [hform]
    by_cases hnm : n = m
    · subst hnm
      rw [aggStep_node_self]
      by_cases hc : ((aggregate h l).node n).children = ∅ <;>
        simp [hc, Finset.mem_filter, startswith_refl]
    · rw [aggStep_node_ne _ _ _ hnm]
      have hnl : n ∈ l := by
        rcases List.mem_append.mp hn with h1 | h1
        · exact h1
        · exact absurd (by simpa using h1) hnm
      exact ih hnl

/-- The node map produced by an aggregation step depends only on the node
map of the input state, not on its key set. -/
theorem aggStep_node_congr (h₁ h₂ : Hier) (hnode : ∀ x, h₁.node x = h₂.node x)
    (m x : String) : (aggStep h₁ m).node x = (aggStep h₂ m).node x := by
  have hfun : h₁.node = h₂.node := funext hnode
  by_cases hx : x = m
  · subst hx
    rw [aggStep_node_self, aggStep_node_self, hfun]
  · rw [aggStep_node_ne _ _ _ hx, aggStep_node_ne _ _ _ hx, hnode x]

theorem aggregate_node_congr (h₁ h₂ : Hier) (hnode : ∀ x, h₁.node x = h₂.node x)
    (l : List String) (x : String) :
    (aggregate h₁ l).node x = (aggregate h₂ l).node x := by
  induction l generalizing h₁ h₂ with
  | nil => exact hnode x
  | cons m t ih =>
    exact ih (aggStep h₁ m) (aggStep h₂ m) (fun y => aggStep_node_congr h₁ h₂ hnode m y)

theorem rawNode_update_imports_to_self (r : RawNode) (s : Finset String)
    (hs : s = r.imports_to) : { r with imports_to := s } = r := by
  subst hs; rfl

/-- Re-running the aggregation over an already-aggregated state, along any
prefix of the same valid order, changes no node record. -/
theorem aggregate_twice_prefix (h : Hier) (order : List String)
    (hv : ValidOrder (fun x => (h.node x).children) order) :
    ∀ l, l <+: order →
      ∀ x, (aggregate (aggregate h order) l).node x = (aggregate h order).node x := by
  intro l
  induction l using List.reverseRecOn with
  | nil => intro _ x; rfl
  | append_singleton l m ih =>
    intro hpre x
    have hl : l <+: order := (List.prefix_append l [m]).trans hpre
    have hm : m ∈ order := hpre.subset (by simp)
    have hform : aggregate (aggregate h order) (l ++ [m]) =
        aggStep (aggregate (aggregate h order) l) m := by
      rw [aggregate_append]; rfl
    rw [hform,
      aggStep_node_congr (aggregate (aggregate h order) l) (aggregate h order) (ih hl) m x]
    by_cases hx : x = m
    · subst hx
      rw [aggStep_node_self]
      have hch : ((aggregate h order).node x).children = (h.node x).children :=
        aggregate_children h order x
      by_cases hc : (h.node x).children = ∅
      · rw [if_pos (by rw [hch]; exact hc)]
        obtain ⟨hto, _⟩ := aggregate_leaf_spec h order hv x hm hc
        refine rawNode_update_imports_to_self _ _ ?_
        rw [hto]
        ext y
        simp only [Finset.mem_filter]
        tauto
      · rw [if_neg (by rw [hch]; exact hc), hch]
        obtain ⟨hto, hfrom⟩ := aggregate_internal_spec h order hv x hm hc
        have h1 : (((aggregate h order).node x).imports_to ∪
            (h.node x).children.biUnion
              (fun c => ((aggregate h order).node c).imports_to)).filter
            (fun imp => ¬ startswith imp x) = ((aggregate h order).node x).imports_to := by
          rw [hto]
          ext y
          simp only [Finset.mem_filter, Finset.mem_union]
          tauto
        have h2 : ((aggregate h order).node x).imports_from ∪
            (h.node x).children.biUnion
              (fun c => ((aggregate h order).node c).imports_from) =
            ((aggregate h order).node x).imports_from := by
          rw [hfrom]
          ext y
          simp only [Finset.mem_union]
          tauto
        rw [h1, h2]
    · rw [aggStep_node_ne _ _ _ hx]

/-! ### Claims C1, C2, C4 -/

/-- C1 (amended): for every internal node processed by the bottom-up edge
aggregation, its imports_to equals the union of its own raw edges and its
children's already-aggregated imports_to with every identifier that starts
with the node's own identifier removed under the raw string-prefix test (no
path separator appended, so an identifier merely sharing a textual prefix is
removed as well), and its imports_from equals the corresponding union with
nothing removed. -/
theorem internal_node_aggregation_spec (h : Hier) (order : List String)
    (hv : ValidOrder (fun x => (h.node x).children) order) (n : String)
    (hn : n ∈ order) (hint : (h.node n).children ≠ ∅) :
    ((aggregate h order).node n).imports_to =
      ((h.node n).imports_to ∪ (h.node n).children.biUnion
          (fun c => ((aggregate h order).node c).imports_to)).filter
        (fun imp => ¬ startswith imp n) ∧
    ((aggregate h order).node n).imports_from =
      (h.node n).imports_from ∪ (h.node n).children.biUnion
          (fun c => ((aggregate h order).node c).imports_from) :=
  aggregate_internal_spec h order hv n hn hint

/-- Witness for the amended C1 theorem, at the hierarchy built from
identifiers a and a.x with the single raw edge (a, a.x) and processing
order [a.x, a]. -/
theorem internal_node_aggregation_spec_witness :
    ValidOrder
      (fun x => (((recordEdges (registerAll ["a"] "a" ["a", "a.x"])
        [("a", "a.x")]).node x)).children) ["a.x", "a"] ∧
    (((aggregate (recordEdges (registerAll ["a"] "a" ["a", "a.x"]) [("a", "a.x")])
        ["a.x", "a"]).node "a").imports_to =
      (((recordEdges (registerAll ["a"] "a" ["a", "a.x"]) [("a", "a.x")]).node "a").imports_to ∪
        ((recordEdges (registerAll ["a"] "a" ["a", "a.x"]) [("a", "a.x")]).node "a").children.biUnion
          (fun c => ((aggregate (recordEdges (registerAll ["a"] "a" ["a", "a.x"])
            [("a", "a.x")]) ["a.x", "a"]).node c).imports_to)).filter
        (fun imp => ¬ startswith imp "a") ∧
    ((aggregate (recordEdges (registerAll ["a"] "a" ["a", "a.x"]) [("a", "a.x")])
        ["a.x", "a"]).node "a").imports_from =
      ((recordEdges (registerAll ["a"] "a" ["a", "a.x"]) [("a", "a.x")]).node "a").imports_from ∪
        ((recordEdges (registerAll ["a"] "a" ["a", "a.x"]) [("a", "a.x")]).node "a").children.biUnion
          (fun c => ((aggregate (recordEdges (registerAll ["a"] "a" ["a", "a.x"])
            [("a", "a.x")]) ["a.x", "a"]).node c).imports_from)) :=
  ⟨by decide,
   internal_node_aggregation_spec _ ["a.x", "a"] (by decide) "a" (by decide) (by decide)⟩

/-- C1 counterexample: on identifiers a.b, a.b.s, a.bc with the single raw
edge (a.b.s, a.bc), node a.b is internal, its child a.b.s carries a.bc in
its aggregated imports_to, and a.bc does not start with "a.b." — so the
claimed separator-aware filter would keep a.bc in a.b's imports_to — yet the
code's aggregation drops it (a.bc starts with the raw prefix a.b). -/
theorem internal_node_aggregation_counterexample :
    ((buildHierarchicalData 50 [("a.b.s", "a.bc")] ["a.b", "a.b.s", "a.bc"]).map
      (fun h => decide ((h.node "a.b").children ≠ ∅) &&
        decide ("a.b.s" ∈ (h.node "a.b").children) &&
        decide ("a.bc" ∈ (h.node "a.b.s").imports_to) &&
        decide ("a.bc" ∉ (h.node "a.b").imports_to))) = some true ∧
    ¬ startswith "a.bc" ("a.b" ++ ".") :=
  ⟨by decide, by decide⟩

/-- C2 (amended): after the aggregation pass, no processed node's
imports_to contains the node's own identifier (both branches of the pass
rewrite imports_to through a filter that drops every target the node's
identifier is a string prefix of, its own identifier included); the
corresponding statement for imports_from is false, see the counterexample. -/
theorem no_self_in_imports_to (h : Hier) (order : List String) (n : String)
    (hn : n ∈ order) : n ∉ ((aggregate h order).node n).imports_to :=
  aggregate_self_not_mem_imports_to h order n hn

/-- Witness for the amended C2 theorem at a concrete two-node hierarchy. -/
theorem no_self_in_imports_to_witness :
    "a" ∈ ["a.x", "a"] ∧
    "a" ∉ ((aggregate (recordEdges (registerAll ["a"] "a" ["a", "a.x"])
      [("a", "a.x")]) ["a.x", "a"]).node "a").imports_to :=
  ⟨by decide, no_self_in_imports_to _ ["a.x", "a"] "a" (by decide)⟩

/-- C2 counterexample: identifiers a and a.x with the raw edge (a, a.x) —
an edge from a node into its own subtree.  After the full
_build_hierarchical_data pipeline, node a's imports_from contains a itself:
the internal-node branch unions the child's imports_from (which holds the
source a) and writes it back without any filtering. -/
theorem no_self_in_imports_counterexample :
    ((buildHierarchicalData 50 [("a", "a.x")] []).map
      (fun h => decide ("a" ∈ (h.node "a").imports_from))) = some true := by
  decide

/-- C4: the bottom-up edge-aggregation pass is idempotent: re-running it
over the already-aggregated per-node edge sets, along the same valid
processing order, leaves every node's record (children, imports_to,
imports_from) unchanged. -/
theorem aggregation_idempotent (h : Hier) (order : List String)
    (hv : ValidOrder (fun x => (h.node x).children) order) (x : String) :
    (aggregate (aggregate h order) order).node x = (aggregate h order).node x :=
  aggregate_twice_prefix h order hv order (List.prefix_refl _) x

/-- Witness for C4 at a concrete hierarchy and order. -/
theorem aggregation_idempotent_witness :
    ValidOrder
      (fun x => (((recordEdges (registerAll ["a"] "a" ["a", "a.x"])
        [("a", "a.x")]).node x)).children) ["a.x", "a"] ∧
    (aggregate (aggregate (recordEdges (registerAll ["a"] "a" ["a", "a.x"])
        [("a", "a.x")]) ["a.x", "a"]) ["a.x", "a"]).node "a" =
      (aggregate (recordEdges (registerAll ["a"] "a" ["a", "a.x"])
        [("a", "a.x")]) ["a.x", "a"]).node "a" :=
  ⟨by decide, aggregation_idempotent _ ["a.x", "a"] (by decide) "a"⟩

/-! ### Claim C7: the tree builder materializes every ancestor -/

theorem dom_mono_registerStep (root_id : String) (parts : List String) (h : Hier) (i : Nat) :
    h.dom ⊆ (registerStep root_id parts h i).dom := by
  unfold registerStep ensure updNode
  intro x hx
  by_cases hpc : (if i > 0 then joinDot (parts.take i) else root_id) ≠
      joinDot (parts.take (i + 1)) <;>
    simp [hpc] <;> tauto

theorem dom_mono_foldl {α : Type} (f : Hier → α → Hier)
    (hf : ∀ h a, h.dom ⊆ (f h a).dom) (h : Hier) (l : List α) :
    h.dom ⊆ (l.foldl f h).dom := by
  induction l generalizing h with
  | nil => exact fun x hx => hx
  | cons a t ih => exact fun x hx => ih (f h a) (hf h a hx)

theorem dom_mono_registerPkg (common : List String) (root_id : String) (h : Hier)
    (pkg : String) : h.dom ⊆ (registerPkg common root_id h pkg).dom :=
  dom_mono_foldl _ (dom_mono_registerStep root_id (splitDot pkg)) h _

theorem registerStep_creates (root_id : String) (parts : List String) (h : Hier) (i : Nat) :
    joinDot (parts.take (i + 1)) ∈ (registerStep root_id parts h i).dom := by
  unfold registerStep ensure updNode
  by_cases hpc : (if i > 0 then joinDot (parts.take i) else root_id) ≠
      joinDot (parts.take (i + 1)) <;>
    simp [hpc]

theorem foldl_creates (f : Hier → Nat → Hier) (g : Nat → String)
    (hmono : ∀ h a, h.dom ⊆ (f h a).dom)
    (hcreate : ∀ h a, g a ∈ (f h a).dom)
    (l : List Nat) (i : Nat) :
    i ∈ l → ∀ h : Hier, g i ∈ (l.foldl f h).dom := by
  induction l with
  | nil => intro hi; simp at hi
  | cons a t ih =>
    intro hi h
    rcases List.mem_cons.mp hi with rfl | hmem
    · exact dom_mono_foldl f hmono (f h i) t (hcreate h i)
    · exact ih hmem (f h a)

theorem registerPkg_creates (common : List String) (root_id : String) (h : Hier)
    (pkg : String) (i : Nat) (hi : common.length ≤ i) (hlen : i < (splitDot pkg).length) :
    joinDot ((splitDot pkg).take (i + 1)) ∈ (registerPkg common root_id h pkg).dom := by
  unfold registerPkg
  refine foldl_creates _ (fun j => joinDot ((splitDot pkg).take (j + 1)))
    (dom_mono_registerStep root_id (splitDot pkg))
    (registerStep_creates root_id (splitDot pkg)) _ i ?_ h
  rw [List.mem_range'_1]
  omega

theorem registerAll_creates (common : List String) (root_id : String)
    (pkgs : List String) (pkg : String) (hpkg : pkg ∈ pkgs) (i : Nat)
    (hi : common.length ≤ i) (hlen : i < (splitDot pkg).length) :
    joinDot ((splitDot pkg).take (i + 1)) ∈ (registerAll common root_id pkgs).dom := by
  unfold registerAll
  obtain ⟨l₁, l₂, rfl⟩ := List.append_of_mem hpkg
  rw [List.foldl_append]
  show _ ∈ (List.foldl _ (registerPkg common root_id (List.foldl _ (Hier.init root_id) l₁) pkg) l₂).dom
  exact dom_mono_foldl _ (dom_mono_registerPkg common root_id) _ l₂
    (registerPkg_creates common root_id _ pkg i hi hlen)

theorem registerAll_root_mem (common : List String) (root_id : String)
    (pkgs : List String) : root_id ∈ (registerAll common root_id pkgs).dom := by
  unfold registerAll
  exact dom_mono_foldl _ (dom_mono_registerPkg common root_id) (Hier.init root_id) pkgs
    (by simp [Hier.init])

/-- The common segment list is a prefix of every listed identifier's
segment list. -/
theorem commonOf_prefix (pkgs : List String) (pkg : String) (hpkg : pkg ∈ pkgs) :
    commonOf pkgs <+: splitDot pkg := by
  cases pkgs with
  | nil => simp at hpkg
  | cons p rest =>
    rcases List.mem_cons.mp hpkg with rfl | hmem
    · exact zipCommon_prefix_first _ _
    · exact zipCommon_prefix_rest _ _ _ (List.mem_map.mpr ⟨pkg, hmem, rfl⟩)

/-- C7: after tree registration over a non-empty identifier list, the
computed root exists as a node, and for every listed identifier every dotted
prefix of it from the common-prefix depth (and at least depth 1) up to the
identifier itself exists as a node — the full ancestor chain between the
root and the identifier is materialized. -/
theorem tree_builder_ancestors (pkgs : List String) (hne : pkgs ≠ [])
    (pkg : String) (hpkg : pkg ∈ pkgs) (k : Nat)
    (hk1 : (commonOf pkgs).length ≤ k) (hk2 : 1 ≤ k)
    (hk3 : k ≤ (splitDot pkg).length) :
    rootOf pkgs (commonOf pkgs) ∈
      (registerAll (commonOf pkgs) (rootOf pkgs (commonOf pkgs)) pkgs).dom ∧
    joinDot ((splitDot pkg).take k) ∈
      (registerAll (commonOf pkgs) (rootOf pkgs (commonOf pkgs)) pkgs).dom := by
  refine ⟨registerAll_root_mem _ _ _, ?_⟩
  rcases Nat.lt_or_ge (commonOf pkgs).length k with hgt | hge
  · obtain ⟨i, rfl⟩ : ∃ i, k = i + 1 := ⟨k - 1, by omega⟩
    exact registerAll_creates _ _ pkgs pkg hpkg i (by omega) (by omega)
  · have hkeq : k = (commonOf pkgs).length := by omega
    have hpre : commonOf pkgs <+: splitDot pkg := commonOf_prefix pkgs pkg hpkg
    have htake : (splitDot pkg).take k = commonOf pkgs := by
      rw [hkeq]
      exact (List.prefix_iff_eq_take.mp hpre).symm
    have hcne : commonOf pkgs ≠ [] := by
      intro hnil
      rw [hnil] at hkeq
      simp at hkeq
      omega
    have hroot : rootOf pkgs (commonOf pkgs) = joinDot (commonOf pkgs) := by
      unfold rootOf
      simp [hcne]
    rw [htake, ← hroot]
    exact registerAll_root_mem _ _ _

/-- Witness for C7 at identifiers a and a.x, ancestor depth 1 of a.x. -/
theorem tree_builder_ancestors_witness :
    (["a", "a.x"] : List String) ≠ [] ∧
    (rootOf ["a", "a.x"] (commonOf ["a", "a.x"]) ∈
      (registerAll (commonOf ["a", "a.x"]) (rootOf ["a", "a.x"] (commonOf ["a", "a.x"]))
        ["a", "a.x"]).dom ∧
    joinDot ((splitDot "a.x").take 1) ∈
      (registerAll (commonOf ["a", "a.x"]) (rootOf ["a", "a.x"] (commonOf ["a", "a.x"]))
        ["a", "a.x"]).dom) :=
  ⟨by decide,
   tree_builder_ancestors ["a", "a.x"] (by decide) "a.x" (by decide) 1
     (by decide) (by decide) (by decide)⟩

/-! ### Symbol data (model.py SymbolData) and Python dict operations -/

/-- SymbolData from model.py: a function, class, or method, with nested
children symbols (a type's methods), modelled with the children dict as an
association list in insertion order. -/
structure SymbolData where
  name : String
  kind : String
  line : Option Nat
  calls : List String
  inherits : List String
  children : List (String × SymbolData)
  visibility : Option String

/-- Python dict lookup d.get(k): first (unique) matching key. -/
def dictGet {α : Type} (l : List (String × α)) (k : String) : Option α :=
  (l.find? (fun p => p.1 == k)).map Prod.snd

/-- Python dict assignment d[k] = v: replace in place when the key exists,
append otherwise (insertion-order semantics). -/
def dictSet {α : Type} : List (String × α) → String → α → List (String × α)
  | [], k, v => [(k, v)]
  | (k', v') :: t, k, v =>
    if k' = k then (k', v) :: t else (k', v') :: dictSet t k v

/-- Python d.update(new): assign every item of new into d, in order. -/
def dictUpdate {α : Type} (l new : List (String × α)) : List (String × α) :=
  new.foldl (fun acc p => dictSet acc p.1 p.2) l

theorem dictGet_dictSet_self {α : Type} (l : List (String × α)) (k : String) (v : α) :
    dictGet (dictSet l k v) k = some v := by
  induction l with
  | nil => simp [dictGet, dictSet, List.find?_cons]
  | cons p t ih =>
    obtain ⟨k', v'⟩ := p
    by_cases hk : k' = k
    · subst hk
      simp [dictGet, dictSet, List.find?_cons]
    · rw [dictSet, if_neg hk, dictGet, List.find?_cons]
      simp only [show (k' == k) = false by simpa using hk]
      exact ih

theorem dictGet_dictSet_ne {α : Type} (l : List (String × α)) (k k' : String) (v : α)
    (hne : k ≠ k') : dictGet (dictSet l k' v) k = dictGet l k := by
  have hbeq : (k' == k) = false := by simpa using fun h => hne h.symm
  induction l with
  | nil => simp [dictGet, dictSet, List.find?_cons, hbeq]
  | cons p t ih =>
    obtain ⟨k₀, v₀⟩ := p
    by_cases hk : k₀ = k'
    · subst hk
      simp [dictGet, dictSet, List.find?_cons, hbeq]
    · rw [dictSet, if_neg hk]
      by_cases hk2 : k₀ = k
      · subst hk2
        simp [dictGet, List.find?_cons]
      · have hbeq2 : (k₀ == k) = false := by simpa using hk2
        simp only [dictGet, List.find?_cons, hbeq2] at ih ⊢
        exact ih

theorem dictGet_dictUpdate_not_mem {α : Type} (l new : List (String × α)) (k : String)
    (hk : ∀ p ∈ new, p.1 ≠ k) : dictGet (dictUpdate l new) k = dictGet l k := by
  induction new generalizing l with
  | nil => rfl
  | cons p t ih =>
    have hrest := ih (dictSet l p.1 p.2) (fun q hq => hk q (List.mem_cons_of_mem p hq))
    calc dictGet (dictUpdate l (p :: t)) k
        = dictGet (dictUpdate (dictSet l p.1 p.2) t) k := rfl
      _ = dictGet (dictSet l p.1 p.2) k := hrest
      _ = dictGet l k := dictGet_dictSet_ne l k p.1 p.2
          (fun h => hk p (List.mem_cons_self p t) h.symm)

/-- C3 (amended, part 1): merging a later pass's symbol mapping by dict
update replaces a same-named symbol wholesale — the merged entry is exactly
the later pass's record, all of its fields included, whether empty or not;
nothing of the earlier record survives. -/
theorem symbol_merge_new_wins {α : Type} (new : List (String × α)) (k : String)
    (v : α) :
    (new.map Prod.fst).Nodup → dictGet new k = some v →
      ∀ old : List (String × α), dictGet (dictUpdate old new) k = some v := by
  induction new with
  | nil =>
    intro _ hget
    simp [dictGet, List.find?] at hget
  | cons p t ih =>
    intro hnodup hget old
    obtain ⟨k', v'⟩ := p
    rw [List.map_cons, List.nodup_cons] at hnodup
    by_cases hk : k' = k
    · subst hk
      have hv : v' = v := by
        simpa [dictGet, List.find?_cons] using hget
      subst hv
      have hnot : ∀ q ∈ t, q.1 ≠ k' := by
        intro q hq hqk
        exact hnodup.1 (hqk ▸ List.mem_map.mpr ⟨q, hq, rfl⟩)
      calc dictGet (dictUpdate old ((k', v') :: t)) k'
          = dictGet (dictUpdate (dictSet old k' v') t) k' := rfl
        _ = dictGet (dictSet old k' v') k' := dictGet_dictUpdate_not_mem _ t k' hnot
        _ = some v' := dictGet_dictSet_self old k' v'
    · have hbeq : (k' == k) = false := by simpa using hk
      have hget' : dictGet t k = some v := by
        rw [dictGet, List.find?_cons] at hget
        simpa only [hbeq] using hget
      exact ih hnodup.2 hget' (dictSet old k' v')

/-- C3 (amended, part 2): a symbol name absent from the later pass's mapping
keeps its earlier record unchanged. -/
theorem symbol_merge_missing_keeps_old {α : Type} (old new : List (String × α))
    (k : String) (hget : dictGet new k = none) :
    dictGet (dictUpdate old new) k = dictGet old k := by
  refine dictGet_dictUpdate_not_mem old new k ?_
  have hfind : new.find? (fun p => p.1 == k) = none := by
    rw [dictGet] at hget
    exact Option.map_eq_none.mp hget
  intro p hp hpk
  have := List.find?_eq_none.mp hfind p hp
  simp [hpk] at this

/-- C3 counterexample: pass one records symbol f with line 10; pass two
contributes f with no line.  The merge in the source (dict update, e.g.
gradle/source_symbols.py line 521 and java/ast_symbols.py line 51) erases
the earlier line: the merged record's line is none, though the claim says a
field set by an earlier pass is never erased by a later pass leaving the
field empty. -/
theorem symbol_merge_counterexample :
    (dictGet [("f", (⟨"f", "function", some 10, [], [], [], some "public"⟩ : SymbolData))]
      "f").map SymbolData.line = some (some 10) ∧
    (dictGet [("f", (⟨"f", "function", none, ["g"], [], [], none⟩ : SymbolData))]
      "f").map SymbolData.line = some none ∧
    (dictGet (dictUpdate
        [("f", (⟨"f", "function", some 10, [], [], [], some "public"⟩ : SymbolData))]
        [("f", (⟨"f", "function", none, ["g"], [], [], none⟩ : SymbolData))])
      "f").map SymbolData.line = some none :=
  ⟨rfl, rfl, rfl⟩

/-- Witness for the amended C3 theorem (part 1) at a concrete merge. -/
theorem symbol_merge_new_wins_witness :
    ((([("f", (⟨"f", "function", none, ["g"], [], [], none⟩ : SymbolData))].map
        Prod.fst).Nodup) ∧
      dictGet [("f", (⟨"f", "function", none, ["g"], [], [], none⟩ : SymbolData))] "f" =
        some ⟨"f", "function", none, ["g"], [], [], none⟩) ∧
    dictGet (dictUpdate
        [("f", (⟨"f", "function", some 10, [], [], [], some "public"⟩ : SymbolData))]
        [("f", (⟨"f", "function", none, ["g"], [], [], none⟩ : SymbolData))]) "f" =
      some ⟨"f", "function", none, ["g"], [], [], none⟩ :=
  ⟨⟨by decide, rfl⟩,
   symbol_merge_new_wins [("f", (⟨"f", "function", none, ["g"], [], [], none⟩ : SymbolData))]
     "f" ⟨"f", "function", none, ["g"], [], [], none⟩ (by decide) rfl
     [("f", (⟨"f", "function", some 10, [], [], [], some "public"⟩ : SymbolData))]⟩

/-! ### Claim C9: visibility downgrade for non-exported namespaces

Python (python/ast_symbols.py lines 44-49):
  if not graph.hierarchy[module_name].is_exported:
      for sym in symbols.values():
          sym.visibility = "private"
          for child in sym.children.values():
              child.visibility = "private"
The loop rewrites the visibility of the top-level symbols and of their
direct children.  The extractor producing the symbols mapping
(_extract_symbols) only ever emits two levels: top-level functions and
classes, and a class's methods, which themselves carry no children — the
shape hypothesis below records that. -/

def downgradeSymbols (symbols : List (String × SymbolData)) : List (String × SymbolData) :=
  symbols.map (fun p => (p.1,
    { p.2 with
      visibility := some "private",
      children := p.2.children.map
        (fun q => (q.1, { q.2 with visibility := some "private" })) }))

def applyVisibilityDowngrade (is_exported : Bool)
    (symbols : List (String × SymbolData)) : List (String × SymbolData) :=
  if is_exported then symbols else downgradeSymbols symbols

/-- A symbol and, recursively, every nested symbol at every depth carries
visibility private. -/
inductive AllPrivate : SymbolData → Prop where
  | intro (s : SymbolData) (hvis : s.visibility = some "private")
      (hch : ∀ p ∈ s.children, AllPrivate p.2) : AllPrivate s

/-- C9: when the owning namespace is non-exported, every symbol and every
nested symbol at every depth in the extracted mapping ends up private,
given the shape the AST extractor guarantees (methods of a class carry no
further children). -/
theorem visibility_downgrade_all_private (symbols : List (String × SymbolData))
    (hshape : ∀ p ∈ symbols, ∀ q ∈ p.2.children, q.2.children.isEmpty = true) :
    ∀ p ∈ applyVisibilityDowngrade false symbols, AllPrivate p.2 := by
  intro p hp
  rw [applyVisibilityDowngrade, if_neg (by simp)] at hp
  obtain ⟨orig, hmem, rfl⟩ := List.mem_map.mp hp
  refine AllPrivate.intro _ rfl ?_
  intro q hq
  obtain ⟨oq, hoq, rfl⟩ := List.mem_map.mp hq
  refine AllPrivate.intro _ rfl ?_
  intro r hr
  have hempty : oq.2.children.isEmpty = true := hshape orig hmem oq hoq
  rw [List.isEmpty_iff] at hempty
  simp only [hempty] at hr
  simp at hr

/-- Witness for C9: a public class with a public method, in a non-exported
module, comes out all-private. -/
theorem visibility_downgrade_all_private_witness :
    (∀ p ∈ [("C", (⟨"C", "class", some 1, [], [],
        [("m", ⟨"m", "method", some 2, [], [], [], some "public"⟩)],
        some "public"⟩ : SymbolData))],
      ∀ q ∈ p.2.children, q.2.children.isEmpty = true) ∧
    ∀ p ∈ applyVisibilityDowngrade false
        [("C", (⟨"C", "class", some 1, [], [],
          [("m", ⟨"m", "method", some 2, [], [], [], some "public"⟩)],
          some "public"⟩ : SymbolData))], AllPrivate p.2 :=
  ⟨by decide, visibility_downgrade_all_private _ (by decide)⟩

/-! ### Claim C10: the hierarchy write-back preserves symbols

Python (package_hierarchy._build_hierarchical_data lines 767-775):
  for node_id, raw in hierarchy.items():
      existing = graph.hierarchy.get(node_id)
      graph.hierarchy[node_id] = NodeData(
          children=sorted(raw["children"]),
          imports_to=sorted(raw["imports_to"]),
          imports_from=sorted(raw["imports_from"]),
          symbols=existing.symbols if existing else None,
      )
graph.hierarchy is modelled as a partial map String to NodeData; ks is the
key list of the freshly built hierarchy dict (its keys are unique). -/

/-- NodeData from model.py. -/
structure NodeData where
  children : List String
  imports_to : List String
  imports_from : List String
  symbols : Option (List (String × SymbolData))
  class_deps : Option (List (String × List String))
  is_exported : Bool

/-- The record written for one node: fresh sorted edge lists, symbols
carried over from the pre-existing node when there is one, other fields at
their dataclass defaults. -/
def newNodeData (g : String → Option NodeData) (h : Hier) (k : String) : NodeData :=
  { children := finsort (h.node k).children,
    imports_to := finsort (h.node k).imports_to,
    imports_from := finsort (h.node k).imports_from,
    symbols := match g k with
      | some nd => nd.symbols
      | none => none,
    class_deps := none,
    is_exported := true }

def writeBack (g : String → Option NodeData) (h : Hier) (ks : List String) :
    String → Option NodeData :=
  ks.foldl (fun g' k => Function.update g' k (some (newNodeData g' h k))) g

theorem newNodeData_congr (g g' : String → Option NodeData) (h : Hier) (k : String)
    (hk : g' k = g k) : newNodeData g' h k = newNodeData g h k := by
  unfold newNodeData
  rw [hk]

theorem writeBack_spec (g : String → Option NodeData) (h : Hier) (ks : List String)
    (hnodup : ks.Nodup) (k : String) :
    writeBack g h ks k = if k ∈ ks then some (newNodeData g h k) else g k := by
  induction ks generalizing g with
  | nil => simp [writeBack]
  | cons a t ih =>
    rw [List.nodup_cons] at hnodup
    have hstep : writeBack g h (a :: t) k =
        writeBack (Function.update g a (some (newNodeData g h a))) h t k := rfl
    by_cases hka : k = a
    · subst hka
      rw [hstep, ih _ hnodup.2, if_neg hnodup.1, Function.update_same,
        if_pos (List.mem_cons_self k t)]
    · have hupd : Function.update g a (some (newNodeData g h a)) k = g k :=
        Function.update_noteq hka _ _
      rw [hstep, ih _ hnodup.2]
      by_cases hkt : k ∈ t
      · rw [if_pos hkt, if_pos (List.mem_cons_of_mem a hkt),
          newNodeData_congr _ _ h k hupd]
      · rw [if_neg hkt, hupd, if_neg (by simp [hka, hkt])]

/-- C10: re-running the tree builder and edge aggregator rewrites each
rebuilt node's children, imports_to and imports_from, but carries every
pre-existing node's symbols mapping over unchanged, and deletes no node:
a key mapped before the write-back is still mapped after it. -/
theorem rebuild_preserves_symbols (g : String → Option NodeData) (h : Hier)
    (ks : List String) (hnodup : ks.Nodup) (k : String) :
    ((g k).isSome → (writeBack g h ks k).isSome) ∧
    ((writeBack g h ks k).bind NodeData.symbols = (g k).bind NodeData.symbols) ∧
    (k ∈ ks → writeBack g h ks k = some (newNodeData g h k)) := by
  rw [writeBack_spec g h ks hnodup k]
  by_cases hk : k ∈ ks
  · refine ⟨fun _ => by simp [hk], ?_, fun _ => by simp [hk]⟩
    rw [if_pos hk]
    cases hg : g k with
    | none => simp [Option.bind, newNodeData, hg]
    | some nd => simp [Option.bind, newNodeData, hg]
  · exact ⟨fun hs => by simpa [hk] using hs, by simp [hk], fun hmem => absurd hmem hk⟩

/-- A concrete pre-existing graph mapping for the C10 witness: one node a
carrying a symbols mapping. -/
def c10graph : String → Option NodeData := fun x =>
  if x = "a" then
    some ⟨[], [], [], some [("f", ⟨"f", "function", some 3, [], [], [], none⟩)], none, true⟩
  else none

/-- A concrete freshly built hierarchy for the C10 witness. -/
def c10hier : Hier :=
  recordEdges (registerAll ["a"] "a" ["a", "a.x"]) [("a", "a.x")]

/-- Witness for C10 at a concrete graph, hierarchy and key list. -/
theorem rebuild_preserves_symbols_witness :
    (["a", "a.x"] : List String).Nodup ∧
    (((c10graph "a").isSome → (writeBack c10graph c10hier ["a", "a.x"] "a").isSome) ∧
    ((writeBack c10graph c10hier ["a", "a.x"] "a").bind NodeData.symbols =
      (c10graph "a").bind NodeData.symbols) ∧
    ("a" ∈ (["a", "a.x"] : List String) →
      writeBack c10graph c10hier ["a", "a.x"] "a" =
        some (newNodeData c10graph c10hier "a"))) :=
  ⟨by decide, rebuild_preserves_symbols c10graph c10hier ["a", "a.x"] (by decide) "a"⟩

/-! ### Claim C8: cross-root edge projection

Python (rust/module_hierarchy._compute_crate_level_imports):
  crate_set = set(crate_names)
  mod_to_crate = {}
  for crate_name in crate_names:
      for node_id in graph.hierarchy:
          if node_id == crate_name or node_id.startswith(f"{crate_name}."):
              mod_to_crate[node_id] = crate_name
  for crate_name in crate_names:
      crate_node = graph.hierarchy.get(crate_name)
      if crate_node is None: continue
      target_crates = set(); source_crates = set()
      for node_id, node in graph.hierarchy.items():
          if mod_to_crate.get(node_id) != crate_name: continue
          for imp in node.imports_to:
              tgt_crate = mod_to_crate.get(imp)
              if tgt_crate and tgt_crate != crate_name and tgt_crate in crate_set:
                  target_crates.add(tgt_crate)
          for imp in node.imports_from:
              src_crate = mod_to_crate.get(imp)
              if src_crate and src_crate != crate_name and src_crate in crate_set:
                  source_crates.add(src_crate)
      crate_node.imports_to = sorted(target_crates)
      crate_node.imports_from = sorted(source_crates)
graph.hierarchy is modelled as an association list of NodeData in insertion
order; a Python truthiness test on a string is a test against the empty
string. -/

/-- The containment test of the ownership map: the identifier is the crate
itself, or starts with the crate name followed by the path separator. -/
def ownsCond (nid c : String) : Prop := nid = c ∨ startswith nid (c ++ ".")

instance (nid c : String) : Decidable (ownsCond nid c) := by
  unfold ownsCond; infer_instance

/-- The mod_to_crate dict: later crates overwrite earlier ones. -/
def buildModToCrate (crates keys : List String) : List (String × String) :=
  crates.foldl (fun m c =>
    keys.foldl (fun m nid => if ownsCond nid c then dictSet m nid c else m) m) []

/-- One step of the inner target_crates loop: look the edge endpoint up in
the ownership map and collect its crate when it passes the truthiness,
difference and membership tests. -/
def addTargetsStep (m : List (String × String)) (crates : List String) (c : String)
    (acc : Finset String) (imp : String) : Finset String :=
  match dictGet m imp with
  | some tgt => if tgt ≠ "" ∧ tgt ≠ c ∧ tgt ∈ crates then insert tgt acc else acc
  | none => acc

/-- The inner loop of one target_crates computation, over one node's
imports_to list. -/
def addTargets (m : List (String × String)) (crates : List String) (c : String)
    (acc : Finset String) (imps : List String) : Finset String :=
  imps.foldl (addTargetsStep m crates c) acc

/-- The set of crates targeted by nodes owned by crate c. -/
def crateTargets (m : List (String × String)) (crates : List String)
    (g : List (String × NodeData)) (c : String) : Finset String :=
  g.foldl (fun acc p =>
    if dictGet m p.1 = some c then addTargets m crates c acc p.2.imports_to else acc) ∅

/-- The set of crates that nodes owned by crate c are imported from. -/
def crateSources (m : List (String × String)) (crates : List String)
    (g : List (String × NodeData)) (c : String) : Finset String :=
  g.foldl (fun acc p =>
    if dictGet m p.1 = some c then addTargets m crates c acc p.2.imports_from else acc) ∅

/-- Processing of one crate: skip when the crate has no node, else compute
both sets from the current graph state and write them into the crate's
node. -/
def projStep (m : List (String × String)) (crates : List String)
    (g' : List (String × NodeData)) (c : String) : List (String × NodeData) :=
  match dictGet g' c with
  | none => g'
  | some nd =>
    dictSet g' c { nd with
      imports_to := finsort (crateTargets m crates g' c),
      imports_from := finsort (crateSources m crates g' c) }

/-- The full cross-root projection pass. -/
def computeCrateLevelImports (crates : List String) (g : List (String × NodeData)) :
    List (String × NodeData) :=
  crates.foldl (projStep (buildModToCrate crates (g.map Prod.fst)) crates) g

theorem buildInner_get (c : String) (keys : List String) (m : List (String × String))
    (nid : String) :
    dictGet (keys.foldl (fun m nid => if ownsCond nid c then dictSet m nid c else m) m) nid =
      if nid ∈ keys ∧ ownsCond nid c then some c else dictGet m nid := by
  induction keys generalizing m with
  | nil => simp
  | cons a t ih =>
    rw [List.foldl_cons, ih]
    by_cases hmem : nid ∈ t ∧ ownsCond nid c
    · rw [if_pos hmem, if_pos ⟨List.mem_cons_of_mem a hmem.1, hmem.2⟩]
    · rw [if_neg hmem]
      by_cases ha : a = nid
      · subst ha
        by_cases hown : ownsCond a c
        · rw [if_pos hown, dictGet_dictSet_self,
            if_pos ⟨List.mem_cons_self a t, hown⟩]
        · rw [if_neg hown, if_neg (by tauto)]
      · have hget : dictGet (if ownsCond a c then dictSet m a c else m) nid = dictGet m nid := by
          by_cases hown : ownsCond a c
          · rw [if_pos hown, dictGet_dictSet_ne m nid a c (fun hh => ha hh.symm)]
          · rw [if_neg hown]
        rw [hget]
        have : ¬ (nid ∈ a :: t ∧ ownsCond nid c) := by
          intro hcon
          rcases List.mem_cons.mp hcon.1 with h1 | h1
          · exact ha h1.symm
          · exact hmem ⟨h1, hcon.2⟩
        rw [if_neg this]

theorem modToCrate_sound (crates keys : List String) (nid c : String)
    (hget : dictGet (buildModToCrate crates keys) nid = some c) :
    c ∈ crates ∧ nid ∈ keys ∧ ownsCond nid c := by
  induction crates using List.reverseRecOn with
  | nil => simp [buildModToCrate, dictGet, List.find?] at hget
  | append_singleton cs c₀ ih =>
    rw [buildModToCrate, List.foldl_append, List.foldl_cons, List.foldl_nil] at hget
    rw [buildInner_get c₀ keys _ nid] at hget
    by_cases hcond : nid ∈ keys ∧ ownsCond nid c₀
    · rw [if_pos hcond] at hget
      have hc : c₀ = c := by injection hget
      subst hc
      exact ⟨by simp, hcond.1, hcond.2⟩
    · rw [if_neg hcond] at hget
      obtain ⟨h1, h2, h3⟩ := ih hget
      exact ⟨by simp [h1], h2, h3⟩

theorem string_data_inj {a b : String} (h : a.data = b.data) : a = b := by
  cases a; cases b
  exact congrArg String.mk h

theorem data_append_dot (c : String) : (c ++ ".").data = c.data ++ ['.'] := by
  simp [String.data_append]

/-- Under the no-nesting hypothesis, at most one crate contains a given
identifier. -/
theorem owns_unique (crates : List String)
    (hnonest : ∀ c ∈ crates, ∀ c' ∈ crates, c ≠ c' → ¬ startswith c' (c ++ "."))
    (nid c c' : String) (hc : c ∈ crates) (hc' : c' ∈ crates)
    (h1 : ownsCond nid c) (h2 : ownsCond nid c') : c = c' := by
  by_contra hne
  rcases h1 with rfl | h1 <;> rcases h2 with h2eq | h2
  · exact hne h2eq
  · exact hnonest c' hc' nid hc (fun hh => hne hh.symm) h2
  · subst h2eq
    exact hnonest c hc nid hc' hne h1
  · rw [startswith, data_append_dot] at h1 h2
    rcases Nat.le_total (c.data.length + 1) (c'.data.length + 1) with hlen | hlen
    · have hpre : c.data ++ ['.'] <+: c'.data ++ ['.'] :=
        List.prefix_of_prefix_length_le h1 h2 (by simpa using hlen)
      rcases Nat.lt_or_ge c.data.length c'.data.length with hlt | hge
      · have htake : c.data ++ ['.'] = (c'.data ++ ['.']).take (c.data.length + 1) := by
          have := List.prefix_iff_eq_take.mp hpre
          simpa using this
        rw [List.take_append_of_le_length (by omega)] at htake
        have : c.data ++ ['.'] <+: c'.data := htake ▸ List.take_prefix _ _
        exact hnonest c hc c' hc' hne (by rw [startswith, data_append_dot]; exact this)
      · have : c.data ++ ['.'] = c'.data ++ ['.'] :=
          List.IsPrefix.eq_of_length hpre
            (by simp only [List.length_append, List.length_singleton]; omega)
        have : c = c' := string_data_inj (by simpa using this)
        exact hne this
    · have hpre : c'.data ++ ['.'] <+: c.data ++ ['.'] :=
        List.prefix_of_prefix_length_le h2 h1 (by simpa using hlen)
      rcases Nat.lt_or_ge c'.data.length c.data.length with hlt | hge
      · have htake : c'.data ++ ['.'] = (c.data ++ ['.']).take (c'.data.length + 1) := by
          have := List.prefix_iff_eq_take.mp hpre
          simpa using this
        rw [List.take_append_of_le_length (by omega)] at htake
        have : c'.data ++ ['.'] <+: c.data := htake ▸ List.take_prefix _ _
        exact hnonest c' hc' c hc (fun hh => hne hh.symm)
          (by rw [startswith, data_append_dot]; exact this)
      · have : c'.data ++ ['.'] = c.data ++ ['.'] :=
          List.IsPrefix.eq_of_length hpre
            (by simp only [List.length_append, List.length_singleton]; omega)
        have : c = c' := string_data_inj (by simpa using this.symm)
        exact hne this

theorem modToCrate_complete (crates keys : List String)
    (hnonest : ∀ c ∈ crates, ∀ c' ∈ crates, c ≠ c' → ¬ startswith c' (c ++ "."))
    (hnodup : crates.Nodup) (nid c : String) (hc : c ∈ crates) (hkey : nid ∈ keys)
    (hown : ownsCond nid c) :
    dictGet (buildModToCrate crates keys) nid = some c := by
  induction crates using List.reverseRecOn with
  | nil => simp at hc
  | append_singleton cs c₀ ih =>
    rw [buildModToCrate, List.foldl_append, List.foldl_cons, List.foldl_nil]
    rw [buildInner_get c₀ keys _ nid]
    rcases (List.mem_append.mp hc) with hcs | hlast
    · have hc₀ : c ≠ c₀ := by
        intro hh
        subst hh
        exact (List.disjoint_of_nodup_append hnodup) hcs (by simp)
      have hnot : ¬ (nid ∈ keys ∧ ownsCond nid c₀) := by
        intro hcon
        exact hc₀ (owns_unique (cs ++ [c₀]) hnonest nid c c₀ hc (by simp) hown hcon.2)
      rw [if_neg hnot]
      exact ih
        (fun a ha b hb hab => hnonest a (by simp [ha]) b (by simp [hb]) hab)
        (List.Nodup.of_append_left hnodup) hcs
    · have hc₀ : c = c₀ := by simpa using hlast
      subst hc₀
      rw [if_pos ⟨hkey, hown⟩]

theorem mem_addTargetsStep (m : List (String × String)) (crates : List String)
    (c : String) (acc : Finset String) (imp x : String) :
    x ∈ addTargetsStep m crates c acc imp ↔
      x ∈ acc ∨ (dictGet m imp = some x ∧ x ≠ "" ∧ x ≠ c ∧ x ∈ crates) := by
  rcases hdg : dictGet m imp with _ | tgt
  · simp [addTargetsStep, hdg]
  · by_cases hcond : tgt ≠ "" ∧ tgt ≠ c ∧ tgt ∈ crates
    · simp only [addTargetsStep, hdg, if_pos hcond, Finset.mem_insert]
      constructor
      · rintro (rfl | h)
        · exact Or.inr ⟨rfl, hcond.1, hcond.2.1, hcond.2.2⟩
        · exact Or.inl h
      · rintro (h | ⟨hg, _⟩)
        · exact Or.inr h
        · have htx : tgt = x := by injection hg
          exact Or.inl htx.symm
    · simp only [addTargetsStep, hdg, if_neg hcond]
      constructor
      · exact Or.inl
      · rintro (h | ⟨hg, hrest⟩)
        · exact h
        · have htx : tgt = x := by injection hg
          subst htx
          exact absurd hrest hcond

theorem mem_addTargets (m : List (String × String)) (crates : List String) (c : String)
    (imps : List String) (acc : Finset String) (x : String) :
    x ∈ addTargets m crates c acc imps ↔
      x ∈ acc ∨ ∃ imp ∈ imps, dictGet m imp = some x ∧ x ≠ "" ∧ x ≠ c ∧ x ∈ crates := by
  induction imps generalizing acc with
  | nil => simp [addTargets]
  | cons imp t ih =>
    rw [addTargets, List.foldl_cons]
    rw [show List.foldl (addTargetsStep m crates c) (addTargetsStep m crates c acc imp) t =
      addTargets m crates c (addTargetsStep m crates c acc imp) t from rfl]
    rw [ih, mem_addTargetsStep]
    constructor
    · rintro ((h | h) | ⟨i, hi, hrest⟩)
      · exact Or.inl h
      · exact Or.inr ⟨imp, List.mem_cons_self imp t, h⟩
      · exact Or.inr ⟨i, List.mem_cons_of_mem _ hi, hrest⟩
    · rintro (h | ⟨i, hi, hrest⟩)
      · exact Or.inl (Or.inl h)
      · rcases List.mem_cons.mp hi with rfl | hi'
        · exact Or.inl (Or.inr hrest)
        · exact Or.inr ⟨i, hi', hrest⟩

/-- Membership in the generic per-crate set computation, with an arbitrary
projection of the node record (imports_to for targets, imports_from for
sources). -/
theorem mem_crateFold (m : List (String × String)) (crates : List String) (c : String)
    (proj : NodeData → List String) (g : List (String × NodeData)) (acc : Finset String)
    (x : String) :
    x ∈ g.foldl (fun acc p =>
        if dictGet m p.1 = some c then addTargets m crates c acc (proj p.2) else acc) acc ↔
      x ∈ acc ∨ ∃ p ∈ g, dictGet m p.1 = some c ∧
        ∃ imp ∈ proj p.2, dictGet m imp = some x ∧ x ≠ "" ∧ x ≠ c ∧ x ∈ crates := by
  induction g generalizing acc with
  | nil => simp
  | cons p t ih =>
    rw [List.foldl_cons]
    by_cases howns : dictGet m p.1 = some c
    · rw [if_pos howns, ih, mem_addTargets]
      constructor
      · rintro ((h | h) | ⟨q, hq, hrest⟩)
        · exact Or.inl h
        · exact Or.inr ⟨p, List.mem_cons_self p t, howns, h⟩
        · exact Or.inr ⟨q, List.mem_cons_of_mem _ hq, hrest⟩
      · rintro (h | ⟨q, hq, hq2, hrest⟩)
        · exact Or.inl (Or.inl h)
        · rcases List.mem_cons.mp hq with rfl | hq'
          · exact Or.inl (Or.inr hrest)
          · exact Or.inr ⟨q, hq', hq2, hrest⟩
    · rw [if_neg howns, ih]
      constructor
      · rintro (h | ⟨q, hq, hrest⟩)
        · exact Or.inl h
        · exact Or.inr ⟨q, List.mem_cons_of_mem _ hq, hrest⟩
      · rintro (h | ⟨q, hq, hq2, hrest⟩)
        · exact Or.inl h
        · rcases List.mem_cons.mp hq with rfl | hq'
          · exact absurd hq2 howns
          · exact Or.inr ⟨q, hq', hq2, hrest⟩

theorem mem_crateTargets (m : List (String × String)) (crates : List String)
    (g : List (String × NodeData)) (c x : String) :
    x ∈ crateTargets m crates g c ↔
      ∃ p ∈ g, dictGet m p.1 = some c ∧
        ∃ imp ∈ p.2.imports_to, dictGet m imp = some x ∧ x ≠ "" ∧ x ≠ c ∧ x ∈ crates := by
  rw [crateTargets, mem_crateFold m crates c (fun nd => nd.imports_to) g ∅ x]
  simp

theorem mem_crateSources (m : List (String × String)) (crates : List String)
    (g : List (String × NodeData)) (c x : String) :
    x ∈ crateSources m crates g c ↔
      ∃ p ∈ g, dictGet m p.1 = some c ∧
        ∃ imp ∈ p.2.imports_from, dictGet m imp = some x ∧ x ≠ "" ∧ x ≠ c ∧ x ∈ crates := by
  rw [crateSources, mem_crateFold m crates c (fun nd => nd.imports_from) g ∅ x]
  simp

theorem exists_dictSet_stable (g : List (String × NodeData)) (k₀ : String)
    (nd₀ : NodeData) (m : List (String × String)) (c : String)
    (hk : ¬ dictGet m k₀ = some c) (R : String × NodeData → Prop) :
    (∃ p ∈ dictSet g k₀ nd₀, dictGet m p.1 = some c ∧ R p) ↔
      (∃ p ∈ g, dictGet m p.1 = some c ∧ R p) := by
  induction g with
  | nil =>
    simp only [dictSet, List.mem_singleton, List.not_mem_nil]
    constructor
    · rintro ⟨p, rfl, hown, _⟩
      exact absurd hown hk
    · rintro ⟨p, hfalse, _⟩
      exact absurd hfalse (by simp)
  | cons q t ih =>
    obtain ⟨k', v'⟩ := q
    by_cases hkk : k' = k₀
    · subst hkk
      rw [dictSet, if_pos rfl]
      constructor
      · rintro ⟨p, hp, hown, hR⟩
        rcases List.mem_cons.mp hp with rfl | hp'
        · exact absurd hown hk
        · exact ⟨p, List.mem_cons_of_mem _ hp', hown, hR⟩
      · rintro ⟨p, hp, hown, hR⟩
        rcases List.mem_cons.mp hp with rfl | hp'
        · exact absurd hown hk
        · exact ⟨p, List.mem_cons_of_mem _ hp', hown, hR⟩
    · rw [dictSet, if_neg hkk]
      constructor
      · rintro ⟨p, hp, hown, hR⟩
        rcases List.mem_cons.mp hp with rfl | hp'
        · exact ⟨(k', v'), List.mem_cons_self _ t, hown, hR⟩
        · obtain ⟨p', hp'', hrest⟩ := ih.mp ⟨p, hp', hown, hR⟩
          exact ⟨p', List.mem_cons_of_mem _ hp'', hrest⟩
      · rintro ⟨p, hp, hown, hR⟩
        rcases List.mem_cons.mp hp with rfl | hp'
        · exact ⟨(k', v'), List.mem_cons_self _ _, hown, hR⟩
        · obtain ⟨p', hp'', hrest⟩ := ih.mpr ⟨p, hp', hown, hR⟩
          exact ⟨p', List.mem_cons_of_mem _ hp'', hrest⟩

theorem crateTargets_dictSet_stable (m : List (String × String)) (crates : List String)
    (g : List (String × NodeData)) (k₀ : String) (nd₀ : NodeData) (c : String)
    (hk : ¬ dictGet m k₀ = some c) :
    crateTargets m crates (dictSet g k₀ nd₀) c = crateTargets m crates g c := by
  ext x
  rw [mem_crateTargets, mem_crateTargets]
  exact exists_dictSet_stable g k₀ nd₀ m c hk _

theorem crateSources_dictSet_stable (m : List (String × String)) (crates : List String)
    (g : List (String × NodeData)) (k₀ : String) (nd₀ : NodeData) (c : String)
    (hk : ¬ dictGet m k₀ = some c) :
    crateSources m crates (dictSet g k₀ nd₀) c = crateSources m crates g c := by
  ext x
  rw [mem_crateSources, mem_crateSources]
  exact exists_dictSet_stable g k₀ nd₀ m c hk _

theorem projStep_get_ne (m : List (String × String)) (crates : List String)
    (g' : List (String × NodeData)) (c' k : String) (hne : k ≠ c') :
    dictGet (projStep m crates g' c') k = dictGet g' k := by
  unfold projStep
  rcases hdg : dictGet g' c' with _ | nd
  · rfl
  · exact dictGet_dictSet_ne g' k c' _ hne

theorem projStep_targets_stable (m : List (String × String)) (crates : List String)
    (g' : List (String × NodeData)) (c' c : String)
    (hk : ¬ dictGet m c' = some c) :
    crateTargets m crates (projStep m crates g' c') c = crateTargets m crates g' c ∧
    crateSources m crates (projStep m crates g' c') c = crateSources m crates g' c := by
  unfold projStep
  rcases hdg : dictGet g' c' with _ | nd
  · exact ⟨rfl, rfl⟩
  · exact ⟨crateTargets_dictSet_stable m crates g' c' _ c hk,
      crateSources_dictSet_stable m crates g' c' _ c hk⟩

theorem projFold_sees_original (m : List (String × String)) (crates : List String)
    (cl : List String) (c : String)
    (hcl : ∀ c' ∈ cl, c' ≠ c ∧ ¬ dictGet m c' = some c) :
    ∀ g' : List (String × NodeData),
      dictGet (cl.foldl (projStep m crates) g') c = dictGet g' c ∧
      crateTargets m crates (cl.foldl (projStep m crates) g') c =
        crateTargets m crates g' c ∧
      crateSources m crates (cl.foldl (projStep m crates) g') c =
        crateSources m crates g' c := by
  induction cl with
  | nil => exact fun g' => ⟨rfl, rfl, rfl⟩
  | cons c' t ih =>
    intro g'
    have hc' := hcl c' (List.mem_cons_self c' t)
    have hrest := ih (fun a ha => hcl a (List.mem_cons_of_mem c' ha)) (projStep m crates g' c')
    obtain ⟨hstab1, hstab2⟩ := projStep_targets_stable m crates g' c' c hc'.2
    rw [List.foldl_cons]
    exact ⟨hrest.1.trans (projStep_get_ne m crates g' c' c (fun h => hc'.1 h.symm)),
      hrest.2.1.trans hstab1, hrest.2.2.trans hstab2⟩

theorem projFold_get_preserved (m : List (String × String)) (crates : List String)
    (cl : List String) (c : String) (hcl : ∀ c' ∈ cl, c' ≠ c) :
    ∀ g' : List (String × NodeData),
      dictGet (cl.foldl (projStep m crates) g') c = dictGet g' c := by
  induction cl with
  | nil => exact fun g' => rfl
  | cons c' t ih =>
    intro g'
    rw [List.foldl_cons]
    exact (ih (fun a ha => hcl a (List.mem_cons_of_mem c' ha)) _).trans
      (projStep_get_ne m crates g' c' c
        (fun h => hcl c' (List.mem_cons_self c' t) h.symm))

theorem projStep_get_some (m : List (String × String)) (crates : List String)
    (g' : List (String × NodeData)) (c : String) (nd : NodeData)
    (h : dictGet g' c = some nd) :
    projStep m crates g' c = dictSet g' c
      { nd with
        imports_to := finsort (crateTargets m crates g' c),
        imports_from := finsort (crateSources m crates g' c) } := by
  unfold projStep
  rw [h]

/-- The entry the projection pass leaves at a crate that has a node: both
edge lists replaced by the sorted crate-level sets computed from the
pre-projection graph. -/
theorem computeCrate_lookup (crates : List String) (g : List (String × NodeData))
    (c : String) (nd : NodeData) (hnodup : crates.Nodup) (hc : c ∈ crates)
    (hnd : dictGet g c = some nd)
    (hmc : ∀ c' ∈ crates, c' ≠ c →
      ¬ dictGet (buildModToCrate crates (g.map Prod.fst)) c' = some c) :
    dictGet (computeCrateLevelImports crates g) c =
      some { nd with
        imports_to := finsort
          (crateTargets (buildModToCrate crates (g.map Prod.fst)) crates g c),
        imports_from := finsort
          (crateSources (buildModToCrate crates (g.map Prod.fst)) crates g c) } := by
  obtain ⟨l₁, l₂, rfl⟩ := List.append_of_mem hc
  set m := buildModToCrate (l₁ ++ c :: l₂) (g.map Prod.fst) with hm
  have hnodup' := hnodup
  rw [List.nodup_append] at hnodup'
  obtain ⟨hn₁, hn₂, hdisj⟩ := hnodup'
  have hcl₁ : ∀ c' ∈ l₁, c' ≠ c ∧ ¬ dictGet m c' = some c := by
    intro c' hc'
    refine ⟨fun h => hdisj (h ▸ hc') (List.mem_cons_self c l₂), ?_⟩
    exact hmc c' (List.mem_append_left _ hc')
      (fun h => hdisj (h ▸ hc') (List.mem_cons_self c l₂))
  have hcl₂ : ∀ c' ∈ l₂, c' ≠ c := by
    intro c' hc' h
    exact (List.nodup_cons.mp hn₂).1 (h ▸ hc')
  show dictGet ((l₁ ++ c :: l₂).foldl (projStep m (l₁ ++ c :: l₂)) g) c = _
  rw [List.foldl_append, List.foldl_cons]
  obtain ⟨hget, htgt, hsrc⟩ := projFold_sees_original m (l₁ ++ c :: l₂) l₁ c hcl₁ g
  rw [projStep_get_some m (l₁ ++ c :: l₂) _ c nd (hget.trans hnd), htgt, hsrc,
    projFold_get_preserved m (l₁ ++ c :: l₂) l₂ c hcl₂ _, dictGet_dictSet_self]

/-- C8: for a multi-root graph, the cross-root projection writes, at every
root that has a node, an imports_to that is exactly the sorted set of other
roots owning at least one target of some owned node's aggregated
imports_to, and an imports_from that is exactly the sorted set of other
roots owning at least one source of some owned node's aggregated
imports_from; ownership is containment under the root (the identifier
itself or an identifier starting with the root followed by the separator),
restricted to identifiers present in the graph. -/
theorem cross_root_projection_spec (crates : List String) (g : List (String × NodeData))
    (c : String) (nd : NodeData) (hnodup : crates.Nodup)
    (hnonest : ∀ a ∈ crates, ∀ b ∈ crates, a ≠ b → ¬ startswith b (a ++ "."))
    (hempty : "" ∉ crates) (hc : c ∈ crates) (hnd : dictGet g c = some nd) :
    dictGet (computeCrateLevelImports crates g) c =
      some { nd with
        imports_to := finsort
          (crateTargets (buildModToCrate crates (g.map Prod.fst)) crates g c),
        imports_from := finsort
          (crateSources (buildModToCrate crates (g.map Prod.fst)) crates g c) } ∧
    (∀ x, x ∈ crateTargets (buildModToCrate crates (g.map Prod.fst)) crates g c ↔
      (x ∈ crates ∧ x ≠ c ∧ ∃ p ∈ g, ownsCond p.1 c ∧
        ∃ imp ∈ p.2.imports_to, imp ∈ g.map Prod.fst ∧ ownsCond imp x)) ∧
    (∀ x, x ∈ crateSources (buildModToCrate crates (g.map Prod.fst)) crates g c ↔
      (x ∈ crates ∧ x ≠ c ∧ ∃ p ∈ g, ownsCond p.1 c ∧
        ∃ imp ∈ p.2.imports_from, imp ∈ g.map Prod.fst ∧ ownsCond imp x)) := by
  have hmc : ∀ c' ∈ crates, c' ≠ c →
      ¬ dictGet (buildModToCrate crates (g.map Prod.fst)) c' = some c := by
    intro c' hc' hne hsome
    obtain ⟨_, _, hown⟩ := modToCrate_sound crates _ c' c hsome
    rcases hown with h | h
    · exact hne h
    · exact hnonest c hc c' hc' (fun hh => hne hh.symm) h
  refine ⟨computeCrate_lookup crates g c nd hnodup hc hnd hmc, ?_, ?_⟩
  · intro x
    rw [mem_crateTargets]
    constructor
    · rintro ⟨p, hp, hm1, imp, himp, hm2, _, hx2, hx3⟩
      have s1 := modToCrate_sound crates _ p.1 c hm1
      have s2 := modToCrate_sound crates _ imp x hm2
      exact ⟨hx3, hx2, p, hp, s1.2.2, imp, himp, s2.2.1, s2.2.2⟩
    · rintro ⟨hx3, hx2, p, hp, hown1, imp, himp, hkey, hown2⟩
      refine ⟨p, hp, ?_, imp, himp, ?_, fun hxe => hempty (hxe ▸ hx3), hx2, hx3⟩
      · exact modToCrate_complete crates _ hnonest hnodup p.1 c hc
          (List.mem_map.mpr ⟨p, hp, rfl⟩) hown1
      · exact modToCrate_complete crates _ hnonest hnodup imp x hx3 hkey hown2
  · intro x
    rw [mem_crateSources]
    constructor
    · rintro ⟨p, hp, hm1, imp, himp, hm2, _, hx2, hx3⟩
      have s1 := modToCrate_sound crates _ p.1 c hm1
      have s2 := modToCrate_sound crates _ imp x hm2
      exact ⟨hx3, hx2, p, hp, s1.2.2, imp, himp, s2.2.1, s2.2.2⟩
    · rintro ⟨hx3, hx2, p, hp, hown1, imp, himp, hkey, hown2⟩
      refine ⟨p, hp, ?_, imp, himp, ?_, fun hxe => hempty (hxe ▸ hx3), hx2, hx3⟩
      · exact modToCrate_complete crates _ hnonest hnodup p.1 c hc
          (List.mem_map.mpr ⟨p, hp, rfl⟩) hown1
      · exact modToCrate_complete crates _ hnonest hnodup imp x hx3 hkey hown2

/-- The two-root end-to-end example of the claim: roots r1 and r2. -/
def c8crates : List String := ["r1", "r2"]

/-- The aggregated hierarchy of the example: subtrees {r1, r1.a} and
{r2, r2.b} after per-root aggregation of the single raw edge
(r1.a, r2.b). -/
def c8graph : List (String × NodeData) :=
  [("r1", ⟨["r1.a"], ["r2.b"], [], none, none, true⟩),
   ("r1.a", ⟨[], ["r2.b"], [], none, none, true⟩),
   ("r2", ⟨["r2.b"], [], ["r1.a"], none, none, true⟩),
   ("r2.b", ⟨[], [], ["r1.a"], none, none, true⟩)]

/-- Witness for C8: on the example, r1 ends with imports_to = [r2] and r2
with imports_from = [r1], as the claim's end-to-end example states. -/
theorem cross_root_projection_spec_witness :
    ((dictGet (computeCrateLevelImports c8crates c8graph) "r1").map
        NodeData.imports_to = some ["r2"] ∧
      (dictGet (computeCrateLevelImports c8crates c8graph) "r2").map
        NodeData.imports_from = some ["r1"]) ∧
    (dictGet (computeCrateLevelImports c8crates c8graph) "r1" =
      some ⟨["r1.a"],
        finsort (crateTargets (buildModToCrate c8crates (c8graph.map Prod.fst))
          c8crates c8graph "r1"),
        finsort (crateSources (buildModToCrate c8crates (c8graph.map Prod.fst))
          c8crates c8graph "r1"),
        none, none, true⟩ ∧
    (∀ x, x ∈ crateTargets (buildModToCrate c8crates (c8graph.map Prod.fst))
        c8crates c8graph "r1" ↔
      (x ∈ c8crates ∧ x ≠ "r1" ∧ ∃ p ∈ c8graph, ownsCond p.1 "r1" ∧
        ∃ imp ∈ p.2.imports_to, imp ∈ c8graph.map Prod.fst ∧ ownsCond imp x)) ∧
    (∀ x, x ∈ crateSources (buildModToCrate c8crates (c8graph.map Prod.fst))
        c8crates c8graph "r1" ↔
      (x ∈ c8crates ∧ x ≠ "r1" ∧ ∃ p ∈ c8graph, ownsCond p.1 "r1" ∧
        ∃ imp ∈ p.2.imports_from, imp ∈ c8graph.map Prod.fst ∧ ownsCond imp x))) :=
  ⟨⟨rfl, rfl⟩,
   cross_root_projection_spec c8crates c8graph "r1" ⟨["r1.a"], ["r2.b"], [], none, none, true⟩
     (by decide) (by decide) (by decide) (by decide) rfl⟩

/-! ### Claims C5 and C6: the cycle detector (analysis.find_cycles)

Python (analysis.py): Tarjan's strongly-connected-components algorithm over
the imports_to edges of a hierarchy dict.  The hierarchy is modelled as an
association list from identifier to its imports_to list; the recursion is
fueled (the fuel bounds the depth of nested _visit calls; the driver passes
one more than the number of entries, which is always sufficient since every
nested call indexes a previously unindexed key). -/

/-- The state of the Tarjan traversal: the index and lowlink dicts, the
on_stack set, the stack (head is the Python list's end, i.e. the top), the
collected components and the counter. -/
structure TarjanSt where
  index : String → Option Nat
  lowlink : String → Nat
  onStack : Finset String
  stack : List String
  sccs : List (List String)
  counter : Nat

def TarjanSt.init : TarjanSt := ⟨fun _ => none, fun _ => 0, ∅, [], [], 0⟩

/-- The imports_to list of one identifier (empty for unknown keys; the
algorithm only reads entries of keys present in the hierarchy). -/
def imports (g : List (String × List String)) (v : String) : List String :=
  (dictGet g v).getD []

/-- The pop loop of one completed component root: pop, remove from
on_stack and collect until the root itself is popped. -/
def popLoop (v : String) : List String → Finset String → List String →
    List String × Finset String × List String
  | [], onS, acc => (acc, onS, [])
  | w :: rest, onS, acc =>
    if w = v then (acc ++ [w], onS.erase w, rest)
    else popLoop v rest (onS.erase w) (acc ++ [w])

/-- Pop the component rooted at v and record it when it has at least two
members. -/
def popScc (v : String) (s : TarjanSt) : TarjanSt :=
  let r := popLoop v s.stack s.onStack []
  { s with
    stack := r.snd.snd,
    onStack := r.snd.fst,
    sccs := (if r.fst.length ≥ 2 then s.sccs ++ [r.fst] else s.sccs) }

mutual
/-- The body of _visit: index and push the node, walk its imports_to
edges, then pop its component when its lowlink equals its index. -/
def visit (g : List (String × List String)) : Nat → String → TarjanSt → TarjanSt
  | 0, _, s => s
  | fuel + 1, v, s =>
    let s₁ : TarjanSt :=
      { s with
        index := Function.update s.index v (some s.counter),
        lowlink := Function.update s.lowlink v s.counter,
        counter := s.counter + 1,
        stack := v :: s.stack,
        onStack := insert v s.onStack }
    let s₂ := visitEdges g fuel v (imports g v) s₁
    if s₂.index v = some (s₂.lowlink v) then popScc v s₂ else s₂
  termination_by fuel _ _ => (fuel, 0)

/-- The edge loop of _visit: skip targets outside the hierarchy, recurse
into unindexed targets and merge their lowlink, merge the index of targets
still on the stack. -/
def visitEdges (g : List (String × List String)) :
    Nat → String → List String → TarjanSt → TarjanSt
  | _, _, [], s => s
  | fuel, v, w :: ws, s =>
    let s' :=
      if w ∈ g.map Prod.fst then
        if s.index w = none then
          let s₁ := visit g fuel w s
          { s₁ with lowlink :=
              Function.update s₁.lowlink v (min (s₁.lowlink v) (s₁.lowlink w)) }
        else if w ∈ s.onStack then
          { s with lowlink :=
              Function.update s.lowlink v (min (s.lowlink v) ((s.index w).getD 0)) }
        else s
      else s
    visitEdges g fuel v ws s'
  termination_by fuel _ ws _ => (fuel, ws.length + 1)
end

/-- find_cycles: drive _visit over every unindexed key, in insertion
order, and return the collected components. -/
def findCycles (g : List (String × List String)) : List (List String) :=
  ((g.map Prod.fst).foldl
    (fun s v => if s.index v = none then visit g (g.length + 1) v s else s)
    TarjanSt.init).sccs

/-- The same hierarchy with every dangling target (a target that is not a
key of the hierarchy) removed from every imports_to list. -/
def cleanHierarchy (g : List (String × List String)) :
    List (String × List String) :=
  g.map (fun p => (p.1, p.2.filter (fun w => decide (w ∈ g.map Prod.fst))))

theorem visitEdges_nil (g : List (String × List String)) (fuel : Nat) (v : String)
    (s : TarjanSt) : visitEdges g fuel v [] s = s := by
  rw [visitEdges]

theorem visit_zero (g : List (String × List String)) (v : String) (s : TarjanSt) :
    visit g 0 v s = s := by
  rw [visit]

/-- One unfolding step of the edge loop. -/
def edgeStep (g : List (String × List String)) (fuel : Nat) (v w : String)
    (s : TarjanSt) : TarjanSt :=
  if w ∈ g.map Prod.fst then
    if s.index w = none then
      let s₁ := visit g fuel w s
      { s₁ with lowlink :=
          Function.update s₁.lowlink v (min (s₁.lowlink v) (s₁.lowlink w)) }
    else if w ∈ s.onStack then
      { s with lowlink :=
          Function.update s.lowlink v (min (s.lowlink v) ((s.index w).getD 0)) }
    else s
  else s

theorem visitEdges_cons (g : List (String × List String)) (fuel : Nat) (v w : String)
    (ws : List String) (s : TarjanSt) :
    visitEdges g fuel v (w :: ws) s =
      visitEdges g fuel v ws (edgeStep g fuel v w s) := by
  rw [visitEdges]
  rfl

/-- The state pushed at the start of _visit. -/
def pushState (v : String) (s : TarjanSt) : TarjanSt :=
  { s with
    index := Function.update s.index v (some s.counter),
    lowlink := Function.update s.lowlink v s.counter,
    counter := s.counter + 1,
    stack := v :: s.stack,
    onStack := insert v s.onStack }

theorem visit_succ (g : List (String × List String)) (fuel : Nat) (v : String)
    (s : TarjanSt) :
    visit g (fuel + 1) v s =
      (let s₂ := visitEdges g fuel v (imports g v) (pushState v s)
       if s₂.index v = some (s₂.lowlink v) then popScc v s₂ else s₂) := by
  rw [visit]
  rfl

theorem keys_clean (g : List (String × List String)) :
    (cleanHierarchy g).map Prod.fst = g.map Prod.fst := by
  unfold cleanHierarchy
  rw [List.map_map]
  rfl

theorem length_clean (g : List (String × List String)) :
    (cleanHierarchy g).length = g.length := by
  unfold cleanHierarchy
  exact List.length_map g _

theorem dictGet_map_filter (pred : String → Bool) (g : List (String × List String))
    (v : String) :
    dictGet (g.map (fun p => (p.1, p.2.filter pred))) v =
      (dictGet g v).map (fun l => l.filter pred) := by
  induction g with
  | nil => rfl
  | cons p t ih =>
    obtain ⟨k, l⟩ := p
    by_cases hk : (k == v) = true
    · have hkv : k = v := by simpa using hk
      subst hkv
      simp [dictGet, List.find?_cons]
    · simp only [List.map_cons, dictGet, List.find?_cons, hk] at ih ⊢
      exact ih

theorem imports_clean (g : List (String × List String)) (v : String) :
    imports (cleanHierarchy g) v =
      (imports g v).filter (fun w => decide (w ∈ g.map Prod.fst)) := by
  unfold imports cleanHierarchy
  rw [dictGet_map_filter]
  rcases dictGet g v with _ | l
  · rfl
  · rfl

theorem visitEdges_clean_aux (g : List (String × List String)) (fuel : Nat)
    (hA : ∀ v s, visit (cleanHierarchy g) fuel v s = visit g fuel v s) :
    ∀ (ws : List String) (v : String) (s : TarjanSt),
      visitEdges (cleanHierarchy g) fuel v
        (ws.filter (fun w => decide (w ∈ g.map Prod.fst))) s =
      visitEdges g fuel v ws s := by
  intro ws
  induction ws with
  | nil =>
    intro v s
    rw [List.filter_nil, visitEdges_nil, visitEdges_nil]
  | cons w ws ih =>
    intro v s
    by_cases hk : w ∈ g.map Prod.fst
    · rw [List.filter_cons, if_pos (by simpa using hk), visitEdges_cons,
        visitEdges_cons, ih]
      congr 1
      unfold edgeStep
      rw [keys_clean, if_pos hk, if_pos hk]
      by_cases hidx : s.index w = none
      · rw [if_pos hidx, if_pos hidx, hA w s]
      · rw [if_neg hidx, if_neg hidx]
    · rw [List.filter_cons, if_neg (by simpa using hk), visitEdges_cons, ih]
      congr 1
      unfold edgeStep
      rw [if_neg hk]

theorem visit_clean (g : List (String × List String)) :
    ∀ (fuel : Nat) (v : String) (s : TarjanSt),
      visit (cleanHierarchy g) fuel v s = visit g fuel v s := by
  intro fuel
  induction fuel with
  | zero => intro v s; rw [visit_zero, visit_zero]
  | succ fuel ih =>
    intro v s
    rw [visit_succ, visit_succ]
    have hErun : visitEdges (cleanHierarchy g) fuel v
        (imports (cleanHierarchy g) v) (pushState v s) =
        visitEdges g fuel v (imports g v) (pushState v s) := by
      rw [imports_clean]
      exact visitEdges_clean_aux g fuel ih (imports g v) v (pushState v s)
    rw [hErun]

/-- C6: find_cycles never fails on an imports_to entry naming an identifier
absent from the hierarchy — such dangling targets are skipped, and the
returned cycle groups are identical to the result on the hierarchy with all
dangling targets removed from every imports_to list. -/
theorem findCycles_skips_dangling (g : List (String × List String)) :
    findCycles g = findCycles (cleanHierarchy g) := by
  unfold findCycles
  rw [keys_clean, length_clean]
  have hfold : ∀ (l : List String) (s : TarjanSt),
      l.foldl (fun s v => if s.index v = none then
        visit (cleanHierarchy g) (g.length + 1) v s else s) s =
      l.foldl (fun s v => if s.index v = none then
        visit g (g.length + 1) v s else s) s := by
    intro l
    induction l with
    | nil => intro s; rfl
    | cons a t ih =>
      intro s
      rw [List.foldl_cons, List.foldl_cons]
      by_cases hidx : s.index a = none
      · rw [if_pos hidx, if_pos hidx, visit_clean g (g.length + 1) a s, ih]
      · rw [if_neg hidx, if_neg hidx, ih]
  rw [hfold]

/-! ### Soundness of the cycle detector (claim C5)

The development below proves, for every input hierarchy, that every group
returned by findCycles has at least two members, has no duplicates, and is
mutually reachable along imports_to edges between hierarchy keys. -/

/-- One directed reference edge of the analyzable graph: both endpoints are
hierarchy keys and the target occurs in the source's imports_to list. -/
def edgeRel (g : List (String × List String)) (u w : String) : Prop :=
  u ∈ g.map Prod.fst ∧ w ∈ g.map Prod.fst ∧ w ∈ imports g u

/-- Reachability along imports_to edges. -/
def reach (g : List (String × List String)) : String → String → Prop :=
  Relation.ReflTransGen (edgeRel g)

theorem reach_refl (g : List (String × List String)) (u : String) : reach g u u :=
  Relation.ReflTransGen.refl

theorem reach_trans {g : List (String × List String)} {u v w : String}
    (h1 : reach g u v) (h2 : reach g v w) : reach g u w :=
  Relation.ReflTransGen.trans h1 h2

theorem reach_single {g : List (String × List String)} {u w : String}
    (h : edgeRel g u w) : reach g u w :=
  Relation.ReflTransGen.single h

/-- The index of a node, read as a number (only used on indexed nodes). -/
def idxN (s : TarjanSt) (x : String) : Nat := (s.index x).getD 0

/-- A settled node: indexed and no longer on the stack.  Such a node has
completed its visit and its component has been popped. -/
def Settled (s : TarjanSt) (u : String) : Prop :=
  (s.index u).isSome ∧ u ∉ s.stack

/-- The state invariant of the traversal. -/
structure TInv (g : List (String × List String)) (s : TarjanSt) : Prop where
  idx_key : ∀ u, (s.index u).isSome → u ∈ g.map Prod.fst
  idx_lt : ∀ u i, s.index u = some i → i < s.counter
  idx_inj : ∀ u w i, s.index u = some i → s.index w = some i → u = w
  onstack_iff : ∀ x, x ∈ s.onStack ↔ x ∈ s.stack
  stack_nodup : s.stack.Nodup
  stack_idx : ∀ x ∈ s.stack, (s.index x).isSome
  stack_sorted : s.stack.Pairwise (fun a b => idxN s b < idxN s a)
  stack_reach : s.stack.Pairwise (fun a b => reach g b a)
  low_wit : ∀ w ∈ s.stack, ∃ u ∈ s.stack, reach g w u ∧ idxN s u ≤ s.lowlink w
  low_le : ∀ w ∈ s.stack, s.lowlink w ≤ idxN s w
  sccs_ok : ∀ G ∈ s.sccs, G.length ≥ 2 ∧ G.Nodup ∧ ∀ u ∈ G, ∀ w ∈ G, reach g u w
  settled_closed : ∀ u, Settled s u → ∀ w, edgeRel g u w → Settled s w
  sccs_max : ∀ G ∈ s.sccs, ∀ u ∈ G, ∀ x, reach g u x → reach g x u → x ∈ G
  settled_grouped : ∀ u, Settled s u → ∀ x, x ≠ u → reach g u x → reach g x u →
    ∃ G ∈ s.sccs, u ∈ G ∧ x ∈ G

/-- Settled nodes are closed under reachability, not just single edges. -/
theorem settled_reach_closed (g : List (String × List String)) (s : TarjanSt)
    (hinv : TInv g s) {u x : String} (hr : reach g u x) (hu : Settled s u) :
    Settled s x := by
  induction hr with
  | refl => exact hu
  | tail _ hbc ih => exact hinv.settled_closed _ ih _ hbc

/-- The number of keys not yet indexed (the fuel budget). -/
def unidx (g : List (String × List String)) (s : TarjanSt) : Nat :=
  ((g.map Prod.fst).toFinset.filter (fun u => s.index u = none)).card

theorem unidx_mono (g : List (String × List String)) (s s' : TarjanSt)
    (hmono : ∀ u i, s.index u = some i → s'.index u = some i) :
    unidx g s' ≤ unidx g s := by
  refine Finset.card_le_card ?_
  intro u hu
  rw [Finset.mem_filter] at hu ⊢
  refine ⟨hu.1, ?_⟩
  rcases hidx : s.index u with _ | i
  · rfl
  · exact absurd (hmono u i hidx) (by rw [hu.2]; simp)

/-- Indexing one previously unindexed key strictly shrinks the budget. -/
theorem unidx_lt (g : List (String × List String)) (s s' : TarjanSt) (v : String)
    (hmono : ∀ u i, s.index u = some i → s'.index u = some i)
    (hv : s.index v = none) (hv' : (s'.index v).isSome) (hvkey : v ∈ g.map Prod.fst) :
    unidx g s' < unidx g s := by
  refine Finset.card_lt_card ?_
  rw [Finset.ssubset_iff_of_subset]
  · refine ⟨v, ?_, ?_⟩
    · rw [Finset.mem_filter]
      exact ⟨List.mem_toFinset.mpr hvkey, hv⟩
    · rw [Finset.mem_filter]
      rintro ⟨_, hnone⟩
      rw [hnone] at hv'
      simp at hv'
  · intro u hu
    rw [Finset.mem_filter] at hu ⊢
    refine ⟨hu.1, ?_⟩
    rcases hidx : s.index u with _ | i
    · rfl
    · exact absurd (hmono u i hidx) (by rw [hu.2]; simp)

/-- Every node above the split point v on the stack, provided it carries a
lowlink strictly below its own index, reaches v: its lowlink witness lies
strictly lower in index, and iterating descends to v or below. -/
theorem stack_descend (g : List (String × List String)) (s : TarjanSt)
    (hinv : TInv g s) (v : String) (t base : List String)
    (hstack : s.stack = t ++ v :: base)
    (hlow : ∀ x ∈ t, s.lowlink x < idxN s x) :
    ∀ a ∈ t, reach g a v := by
  have main : ∀ n, ∀ a ∈ t, idxN s a = n → reach g a v := by
    intro n
    induction n using Nat.strong_induction_on with
    | _ n ih =>
      intro a ha hn
      have hastack : a ∈ s.stack := by
        rw [hstack]
        exact List.mem_append_left _ ha
      obtain ⟨u, hu, hru, hule⟩ := hinv.low_wit a hastack
      have hult : idxN s u < idxN s a := lt_of_le_of_lt hule (hlow a ha)
      rw [hstack] at hu
      rcases List.mem_append.mp hu with hut | huvb
      · exact reach_trans hru (ih (idxN s u) (hn ▸ hult) u hut rfl)
      · rcases List.mem_cons.mp huvb with rfl | hub
        · exact hru
        · have hpair : reach g u v := by
            have := hinv.stack_reach
            rw [hstack] at this
            have hvb := (List.pairwise_append.mp this).2.1
            exact (List.pairwise_cons.mp hvb).1 u hub
          exact reach_trans hru hpair
  exact fun a ha => main (idxN s a) a ha rfl

/-- Every stack node reaches the active node v sitting at the split
point. -/
theorem stack_reaches_active (g : List (String × List String)) (s : TarjanSt)
    (hinv : TInv g s) (v : String) (t base : List String)
    (hstack : s.stack = t ++ v :: base)
    (hlow : ∀ x ∈ t, s.lowlink x < idxN s x) :
    ∀ u ∈ s.stack, reach g u v := by
  intro u hu
  rw [hstack] at hu
  rcases List.mem_append.mp hu with hut | huvb
  · exact stack_descend g s hinv v t base hstack hlow u hut
  · rcases List.mem_cons.mp huvb with rfl | hub
    · exact reach_refl g u
    · have := hinv.stack_reach
      rw [hstack] at this
      have hvb := (List.pairwise_append.mp this).2.1
      exact (List.pairwise_cons.mp hvb).1 u hub

/-- The pop loop splits the stack at the first occurrence of the root v. -/
theorem popLoop_spec (v : String) : ∀ (t : List String), v ∉ t →
    ∀ (base : List String) (onS : Finset String) (acc : List String),
    popLoop v (t ++ v :: base) onS acc =
      (acc ++ t ++ [v], (t ++ [v]).foldl (fun o x => o.erase x) onS, base) := by
  intro t
  induction t with
  | nil =>
    intro _ base onS acc
    simp [popLoop]
  | cons x t' ih =>
    intro hv base onS acc
    have hxv : x ≠ v := fun h => hv (h ▸ List.mem_cons_self x t')
    have hvt' : v ∉ t' := fun h => hv (List.mem_cons_of_mem x h)
    simp only [List.cons_append, popLoop, List.append_eq]
    rw [if_neg hxv, ih hvt' base (onS.erase x) (acc ++ [x])]
    simp [List.append_assoc]

theorem mem_foldl_erase (x : String) : ∀ (l : List String) (onS : Finset String),
    x ∈ l.foldl (fun o y => o.erase y) onS ↔ x ∈ onS ∧ x ∉ l := by
  intro l
  induction l with
  | nil => intro onS; simp
  | cons y l' ih =>
    intro onS
    rw [List.foldl_cons, ih, Finset.mem_erase]
    constructor
    · rintro ⟨⟨hxy, hxs⟩, hxl⟩
      exact ⟨hxs, by simp [hxy, hxl]⟩
    · rintro ⟨hxs, hxl⟩
      simp only [List.mem_cons, not_or] at hxl
      exact ⟨⟨hxl.1, hxs⟩, hxl.2⟩

/-- Precondition of one _visit call. -/
structure VisitPre (g : List (String × List String)) (fuel : Nat) (v : String)
    (s : TarjanSt) : Prop where
  inv : TInv g s
  vkey : v ∈ g.map Prod.fst
  vnone : s.index v = none
  sreach : ∀ u ∈ s.stack, reach g u v
  fuelok : unidx g s < fuel

/-- What holds of each node x newly left on the stack by a completed call
rooted at v: x was freshly indexed, its lowlink undercuts its index, all
its targets are indexed, the root's lowlink undercuts x's, and every edge
from x back into the stack was merged into x's lowlink. -/
structure Leftover (g : List (String × List String)) (v : String)
    (sOld s' : TarjanSt) (x : String) : Prop where
  oldnone : sOld.index x = none
  lowlt : s'.lowlink x < idxN s' x
  targets : ∀ w, edgeRel g x w → (s'.index w).isSome
  rootlow : s'.lowlink v ≤ s'.lowlink x
  edgelow : ∀ w, edgeRel g x w → w ∈ s'.stack → s'.lowlink x ≤ idxN s' w

/-- Postcondition of one _visit call. -/
structure VisitPost (g : List (String × List String)) (v : String)
    (s s' : TarjanSt) : Prop where
  inv : TInv g s'
  mono : ∀ u i, s.index u = some i → s'.index u = some i
  lowpres : ∀ u, (s.index u).isSome → s'.lowlink u = s.lowlink u
  idxv : s'.index v = some s.counter
  cnt : s.counter < s'.counter
  newidx : ∀ x i, s.index x = none → s'.index x = some i → s.counter ≤ i
  stackext : ∃ t, s'.stack = t ++ s.stack ∧ ∀ x ∈ t, Leftover g v s s' x
  lowpop : v ∉ s'.stack → s'.lowlink v = s.counter

/-- Precondition of the edge loop of _visit over the remaining targets. -/
structure EdgesPre (g : List (String × List String)) (fuel : Nat) (v : String)
    (ws : List String) (s : TarjanSt) : Prop where
  inv : TInv g s
  vkey : v ∈ g.map Prod.fst
  wsub : ∀ w ∈ ws, w ∈ imports g v
  fuelok : unidx g s < fuel
  decomp : ∃ t base, s.stack = t ++ v :: base ∧ ∀ x ∈ t, s.lowlink x < idxN s x
  videx : (s.index v).isSome

/-- Postcondition of the edge loop over the processed targets ws (also of
each single edge step, with ws a singleton). -/
structure EdgesPost (g : List (String × List String)) (v : String)
    (ws : List String) (s s' : TarjanSt) : Prop where
  inv : TInv g s'
  mono : ∀ u i, s.index u = some i → s'.index u = some i
  lowpres : ∀ u, u ≠ v → (s.index u).isSome → s'.lowlink u = s.lowlink u
  cnt : s.counter ≤ s'.counter
  newidx : ∀ x i, s.index x = none → s'.index x = some i → s.counter ≤ i
  stackext : ∃ t, s'.stack = t ++ s.stack ∧ ∀ x ∈ t, Leftover g v s s' x
  lowv : s'.lowlink v ≤ s.lowlink v
  targets : ∀ w ∈ ws, w ∈ g.map Prod.fst → (s'.index w).isSome
  rootedge : ∀ w ∈ ws, w ∈ s'.stack → s'.lowlink v ≤ idxN s' w

theorem edgesPost_refl (g : List (String × List String)) (v : String)
    (ws : List String) (s : TarjanSt) (hinv : TInv g s)
    (htargets : ∀ w ∈ ws, w ∈ g.map Prod.fst → (s.index w).isSome)
    (hrootedge : ∀ w ∈ ws, w ∈ s.stack → s.lowlink v ≤ idxN s w) :
    EdgesPost g v ws s s where
  inv := hinv
  mono := fun _ _ h => h
  lowpres := fun _ _ _ => rfl
  cnt := le_refl _
  newidx := fun x i hn hs => by rw [hn] at hs; cases hs
  stackext := ⟨[], rfl, by intro x hx; cases hx⟩
  lowv := le_refl _
  targets := htargets
  rootedge := hrootedge

theorem edgesPost_trans {g : List (String × List String)} {v : String}
    {ws₁ ws₂ : List String} {s s₁ s₂ : TarjanSt} (hvid : (s.index v).isSome)
    (h1 : EdgesPost g v ws₁ s s₁) (h2 : EdgesPost g v ws₂ s₁ s₂) :
    EdgesPost g v (ws₁ ++ ws₂) s s₂ := by
  obtain ⟨t1, ht1, hc1⟩ := h1.stackext
  obtain ⟨t2, ht2, hc2⟩ := h2.stackext
  have hstay : ∀ y, (s₁.index y).isSome → y ∈ s₂.stack → y ∈ s₁.stack := by
    intro y hy hys₂
    rw [ht2] at hys₂
    rcases List.mem_append.mp hys₂ with hyl | hyr
    · rw [(hc2 y hyl).oldnone] at hy
      cases hy
    · exact hyr
  have hidx12 : ∀ y, (s₁.index y).isSome → s₂.index y = s₁.index y := by
    intro y hy
    rcases hyi : s₁.index y with _ | j
    · rw [hyi] at hy; cases hy
    · exact h2.mono y j hyi
  have hidxN12 : ∀ y, (s₁.index y).isSome → idxN s₂ y = idxN s₁ y := by
    intro y hy
    unfold idxN
    rw [hidx12 y hy]
  refine
    { inv := h2.inv
      mono := fun u i h => h2.mono u i (h1.mono u i h)
      lowpres := ?_
      cnt := le_trans h1.cnt h2.cnt
      newidx := ?_
      stackext := ?_
      lowv := le_trans h2.lowv h1.lowv
      targets := ?_
      rootedge := ?_ }
  · intro u hne hu
    have hu1 : (s₁.index u).isSome := by
      rcases hidx : s.index u with _ | i
      · rw [hidx] at hu; cases hu
      · rw [h1.mono u i hidx]; rfl
    rw [h2.lowpres u hne hu1, h1.lowpres u hne hu]
  · intro x i hn hs
    rcases hidx : s₁.index x with _ | j
    · exact le_trans h1.cnt (h2.newidx x i hidx hs)
    · have hj := h2.mono x j hidx
      rw [hj] at hs
      injection hs with hji
      exact hji ▸ h1.newidx x j hn hidx
  · refine ⟨t2 ++ t1, by rw [ht2, ht1, List.append_assoc], ?_⟩
    intro x hx
    rcases List.mem_append.mp hx with hx2 | hx1
    · have hcond := hc2 x hx2
      have hnone : s.index x = none := by
        rcases hidx : s.index x with _ | i
        · rfl
        · have := h1.mono x i hidx
          rw [hcond.oldnone] at this
          cases this
      exact
        { oldnone := hnone
          lowlt := hcond.lowlt
          targets := hcond.targets
          rootlow := hcond.rootlow
          edgelow := hcond.edgelow }
    · have hcond := hc1 x hx1
      have hxstack : x ∈ s₁.stack := by
        rw [ht1]; exact List.mem_append_left _ hx1
      have hxidx : (s₁.index x).isSome := h1.inv.stack_idx x hxstack
      have hxnev : x ≠ v := by
        intro h
        rw [← h, hcond.oldnone] at hvid
        simp at hvid
      have hlowx : s₂.lowlink x = s₁.lowlink x := h2.lowpres x hxnev hxidx
      refine
        { oldnone := hcond.oldnone
          lowlt := ?_
          targets := ?_
          rootlow := ?_
          edgelow := ?_ }
      · rw [hlowx, hidxN12 x hxidx]
        exact hcond.lowlt
      · intro w he
        have hw1 := hcond.targets w he
        rw [hidx12 w hw1]
        exact hw1
      · rw [hlowx]
        exact le_trans h2.lowv hcond.rootlow
      · intro w he hw2
        have hw1idx : (s₁.index w).isSome := hcond.targets w he
        have hw1 : w ∈ s₁.stack := hstay w hw1idx hw2
        rw [hlowx, hidxN12 w hw1idx]
        exact hcond.edgelow w he hw1
  · intro w hw hwkey
    rcases List.mem_append.mp hw with hw1 | hw2
    · have := h1.targets w hw1 hwkey
      rw [hidx12 w this]
      exact this
    · exact h2.targets w hw2 hwkey
  · intro w hw hws₂
    have hwkey : w ∈ g.map Prod.fst :=
      h2.inv.idx_key w (h2.inv.stack_idx w hws₂)
    rcases List.mem_append.mp hw with hw1 | hw2
    · have hw1idx : (s₁.index w).isSome := h1.targets w hw1 hwkey
      have hws₁ : w ∈ s₁.stack := hstay w hw1idx hws₂
      rw [hidxN12 w hw1idx]
      exact le_trans h2.lowv (h1.rootedge w hw1 hws₁)
    · exact h2.rootedge w hw2 hws₂

/-- Stepping the edge loop state preserves the loop precondition. -/
theorem edgesPre_step {g : List (String × List String)} {fuel : Nat} {v w : String}
    {ws wsp : List String} {s s' : TarjanSt}
    (hpre : EdgesPre g fuel v (w :: ws) s) (hpost : EdgesPost g v wsp s s') :
    EdgesPre g fuel v ws s' where
  inv := hpost.inv
  vkey := hpre.vkey
  wsub := fun x hx => hpre.wsub x (List.mem_cons_of_mem w hx)
  fuelok := lt_of_le_of_lt (unidx_mono g s s' hpost.mono) hpre.fuelok
  decomp := by
    obtain ⟨t0, base, hst, hlt0⟩ := hpre.decomp
    obtain ⟨t1, ht1, hc1⟩ := hpost.stackext
    refine ⟨t1 ++ t0, base, by rw [ht1, hst, List.append_assoc], ?_⟩
    intro x hx
    rcases List.mem_append.mp hx with hx1 | hx0
    · exact (hc1 x hx1).lowlt
    · have hxstack : x ∈ s.stack := by
        rw [hst]; exact List.mem_append_left _ hx0
      have hxidx : (s.index x).isSome := hpre.inv.stack_idx x hxstack
      have hvt0 : v ∉ t0 := by
        have hnd := hpre.inv.stack_nodup
        rw [hst] at hnd
        intro hvmem
        exact (List.disjoint_of_nodup_append hnd) hvmem (List.mem_cons_self v base)
      have hxnev : x ≠ v := fun h => hvt0 (h ▸ hx0)
      have hlowx : s'.lowlink x = s.lowlink x := hpost.lowpres x hxnev hxidx
      have hidxx : s'.index x = s.index x := by
        rcases hidx : s.index x with _ | i
        · rw [hidx] at hxidx; cases hxidx
        · exact hpost.mono x i hidx
      rw [hlowx]
      unfold idxN
      rw [hidxx]
      exact hlt0 x hx0
  videx := by
    have hv := hpre.videx
    rcases hidx : s.index v with _ | i
    · rw [hidx] at hv; cases hv
    · rw [hpost.mono v i hidx]; rfl

/-- Updating the lowlink of one node keeps the invariant as long as the
new value still has a reachable stack witness and stays below the node's
index. -/
theorem tinv_update_low (g : List (String × List String)) (s : TarjanSt)
    (hinv : TInv g s) (v : String) (newlow : Nat)
    (hwit : v ∈ s.stack → ∃ u ∈ s.stack, reach g v u ∧ idxN s u ≤ newlow)
    (hle : v ∈ s.stack → newlow ≤ idxN s v) :
    TInv g { s with lowlink := Function.update s.lowlink v newlow } where
  idx_key := hinv.idx_key
  idx_lt := hinv.idx_lt
  idx_inj := hinv.idx_inj
  onstack_iff := hinv.onstack_iff
  stack_nodup := hinv.stack_nodup
  stack_idx := hinv.stack_idx
  stack_sorted := hinv.stack_sorted
  stack_reach := hinv.stack_reach
  low_wit := by
    intro x hx
    by_cases hxv : x = v
    · subst hxv
      obtain ⟨u, hu, hru, hule⟩ := hwit hx
      refine ⟨u, hu, hru, ?_⟩
      show idxN s u ≤ Function.update s.lowlink x newlow x
      rw [Function.update_same]
      exact hule
    · obtain ⟨u, hu, hru, hule⟩ := hinv.low_wit x hx
      refine ⟨u, hu, hru, ?_⟩
      show idxN s u ≤ Function.update s.lowlink v newlow x
      rw [Function.update_noteq hxv]
      exact hule
  low_le := by
    intro x hx
    by_cases hxv : x = v
    · subst hxv
      show Function.update s.lowlink x newlow x ≤ idxN s x
      rw [Function.update_same]
      exact hle hx
    · show Function.update s.lowlink v newlow x ≤ idxN s x
      rw [Function.update_noteq hxv]
      exact hinv.low_le x hx
  sccs_ok := hinv.sccs_ok
  settled_closed := hinv.settled_closed
  sccs_max := hinv.sccs_max
  settled_grouped := hinv.settled_grouped

/-- One edge step of the loop satisfies the step postcondition, assuming
the nested _visit call meets its contract at the same fuel. -/
theorem edgeStep_post (g : List (String × List String)) (fuel : Nat)
    (v w : String) (ws : List String) (s : TarjanSt)
    (hvisit : ∀ v' s', VisitPre g fuel v' s' →
      VisitPost g v' s' (visit g fuel v' s'))
    (hpre : EdgesPre g fuel v (w :: ws) s) :
    EdgesPost g v [w] s (edgeStep g fuel v w s) := by
  obtain ⟨t0, base, hst, hlt0⟩ := hpre.decomp
  have hvstack : v ∈ s.stack := by
    rw [hst]
    exact List.mem_append_right _ (List.mem_cons_self v base)
  obtain ⟨iv, hiv⟩ := Option.isSome_iff_exists.mp hpre.videx
  have hwimp : w ∈ imports g v := hpre.wsub w (List.mem_cons_self w ws)
  by_cases hwkey : w ∈ g.map Prod.fst
  · by_cases hwnone : s.index w = none
    · -- recursive call into an unindexed target
      have hedge : edgeRel g v w := ⟨hpre.vkey, hwkey, hwimp⟩
      have hreachw : ∀ u ∈ s.stack, reach g u w := fun u hu =>
        reach_trans (stack_reaches_active g s hpre.inv v t0 base hst hlt0 u hu)
          (reach_single hedge)
      have hpost₁ : VisitPost g w s (visit g fuel w s) :=
        hvisit w s ⟨hpre.inv, hwkey, hwnone, hreachw, hpre.fuelok⟩
      unfold edgeStep
      rw [if_pos hwkey, if_pos hwnone]
      show EdgesPost g v [w] s { visit g fuel w s with lowlink := Function.update (visit g fuel w s).lowlink v (min ((visit g fuel w s).lowlink v) ((visit g fuel w s).lowlink w)) }
      obtain ⟨t1, ht1, hc1⟩ := hpost₁.stackext
      have hlowvpres : (visit g fuel w s).lowlink v = s.lowlink v :=
        hpost₁.lowpres v hpre.videx
      have hidxpres : ∀ u ∈ s.stack, idxN (visit g fuel w s) u = idxN s u := by
        intro u hu
        obtain ⟨j, hj⟩ := Option.isSome_iff_exists.mp (hpre.inv.stack_idx u hu)
        unfold idxN
        rw [hpost₁.mono u j hj, hj]
      have hwns : w ∉ s.stack := by
        intro h
        have := hpre.inv.stack_idx w h
        rw [hwnone] at this
        cases this
      refine
        { inv := ?_
          mono := hpost₁.mono
          lowpres := ?_
          cnt := le_of_lt hpost₁.cnt
          newidx := hpost₁.newidx
          stackext := ?_
          lowv := ?_
          targets := ?_
          rootedge := ?_ }
      · refine tinv_update_low g (visit g fuel w s) hpost₁.inv v _ ?_ ?_
        · intro _
          by_cases hws : w ∈ (visit g fuel w s).stack
          · rcases le_total ((visit g fuel w s).lowlink v)
              ((visit g fuel w s).lowlink w) with hle | hle
            · obtain ⟨u, hu, hru, hule⟩ := hpre.inv.low_wit v hvstack
              refine ⟨u, by rw [ht1]; exact List.mem_append_right _ hu, hru, ?_⟩
              rw [min_eq_left hle, hlowvpres, hidxpres u hu]
              exact hule
            · obtain ⟨u', hu', hru', hule'⟩ := hpost₁.inv.low_wit w hws
              refine ⟨u', hu', reach_trans (reach_single hedge) hru', ?_⟩
              rw [min_eq_right hle]
              exact hule'
          · have hwlow : (visit g fuel w s).lowlink w = s.counter :=
              hpost₁.lowpop hws
            have hvlt : s.lowlink v < s.counter := by
              refine lt_of_le_of_lt (hpre.inv.low_le v hvstack) ?_
              unfold idxN
              rw [hiv]
              exact hpre.inv.idx_lt v iv hiv
            have hle : (visit g fuel w s).lowlink v ≤
                (visit g fuel w s).lowlink w := by
              rw [hlowvpres, hwlow]
              exact le_of_lt hvlt
            obtain ⟨u, hu, hru, hule⟩ := hpre.inv.low_wit v hvstack
            refine ⟨u, by rw [ht1]; exact List.mem_append_right _ hu, hru, ?_⟩
            rw [min_eq_left hle, hlowvpres, hidxpres u hu]
            exact hule
        · intro hv1
          exact le_trans (min_le_left _ _) (hpost₁.inv.low_le v hv1)
      · intro u hne hu
        show Function.update (visit g fuel w s).lowlink v _ u = s.lowlink u
        rw [Function.update_noteq hne]
        exact hpost₁.lowpres u hu
      · refine ⟨t1, ht1, ?_⟩
        intro x hx
        have hcond := hc1 x hx
        have hxnone := hcond.oldnone
        have hxnev : x ≠ v := by
          intro h
          rw [h, hiv] at hxnone
          cases hxnone
        refine
          { oldnone := hcond.oldnone
            lowlt := ?_
            targets := fun w' he => hcond.targets w' he
            rootlow := ?_
            edgelow := ?_ }
        · show Function.update (visit g fuel w s).lowlink v _ x <
            idxN (visit g fuel w s) x
          rw [Function.update_noteq hxnev]
          exact hcond.lowlt
        · show Function.update (visit g fuel w s).lowlink v _ v ≤
            Function.update (visit g fuel w s).lowlink v _ x
          rw [Function.update_same, Function.update_noteq hxnev]
          exact le_trans (min_le_right _ _) hcond.rootlow
        · intro w' he hw'
          show Function.update (visit g fuel w s).lowlink v _ x ≤
            idxN (visit g fuel w s) w'
          rw [Function.update_noteq hxnev]
          exact hcond.edgelow w' he hw'
      · show Function.update (visit g fuel w s).lowlink v _ v ≤ s.lowlink v
        rw [Function.update_same, ← hlowvpres]
        exact min_le_left _ _
      · intro w' hw' _
        rw [List.mem_singleton.mp hw']
        show ((visit g fuel w s).index w).isSome
        rw [hpost₁.idxv]
        rfl
      · intro w' hw' hws
        rw [List.mem_singleton.mp hw'] at hws ⊢
        have hwt1 : w ∈ t1 := by
          have hws' : w ∈ (visit g fuel w s).stack := hws
          rw [ht1] at hws'
          rcases List.mem_append.mp hws' with h | h
          · exact h
          · exact absurd h hwns
        have hlowlt := (hc1 w hwt1).lowlt
        show Function.update (visit g fuel w s).lowlink v _ v ≤
          idxN (visit g fuel w s) w
        rw [Function.update_same]
        exact le_trans (min_le_right _ _) (le_of_lt hlowlt)
    · by_cases hwon : w ∈ s.onStack
      · -- back edge to a target still on the stack
        have hwidx : (s.index w).isSome := by
          rcases h : s.index w with _ | j
          · exact absurd h hwnone
          · rfl
        unfold edgeStep
        rw [if_pos hwkey, if_neg hwnone, if_pos hwon]
        refine
          { inv := ?_
            mono := fun _ _ h => h
            lowpres := ?_
            cnt := le_refl _
            newidx := ?_
            stackext := ⟨[], rfl, by intro x hx; cases hx⟩
            lowv := ?_
            targets := ?_
            rootedge := ?_ }
        · refine tinv_update_low g s hpre.inv v _ ?_ ?_
          · intro _
            rcases le_total (s.lowlink v) ((s.index w).getD 0) with hle | hle
            · obtain ⟨u, hu, hru, hule⟩ := hpre.inv.low_wit v hvstack
              refine ⟨u, hu, hru, ?_⟩
              rw [min_eq_left hle]
              exact hule
            · refine ⟨w, (hpre.inv.onstack_iff w).mp hwon,
                reach_single ⟨hpre.vkey, hwkey, hwimp⟩, ?_⟩
              rw [min_eq_right hle]
              exact le_refl _
          · intro _
            exact le_trans (min_le_left _ _) (hpre.inv.low_le v hvstack)
        · intro u hne _
          show Function.update s.lowlink v _ u = s.lowlink u
          rw [Function.update_noteq hne]
        · intro x i hn hs
          have hs' : s.index x = some i := hs
          rw [hn] at hs'
          cases hs'
        · show Function.update s.lowlink v _ v ≤ s.lowlink v
          rw [Function.update_same]
          exact min_le_left _ _
        · intro w' hw' _
          rw [List.mem_singleton.mp hw']
          exact hwidx
        · intro w' hw' hws
          rw [List.mem_singleton.mp hw'] at hws ⊢
          show Function.update s.lowlink v _ v ≤ idxN s w
          rw [Function.update_same]
          exact min_le_right _ _
      · unfold edgeStep
        rw [if_pos hwkey, if_neg hwnone, if_neg hwon]
        refine edgesPost_refl g v [w] s hpre.inv ?_ ?_
        · intro w' hw' _
          rw [List.mem_singleton.mp hw']
          rcases h : s.index w with _ | j
          · exact absurd h hwnone
          · rfl
        · intro w' hw' hws
          rw [List.mem_singleton.mp hw'] at hws
          exact absurd ((hpre.inv.onstack_iff w).mpr hws) hwon
  · unfold edgeStep
    rw [if_neg hwkey]
    refine edgesPost_refl g v [w] s hpre.inv ?_ ?_
    · intro w' hw' hkey
      rw [List.mem_singleton.mp hw'] at hkey
      exact absurd hkey hwkey
    · intro w' hw' hws
      rw [List.mem_singleton.mp hw'] at hws
      exact absurd (hpre.inv.idx_key w (hpre.inv.stack_idx w hws)) hwkey

/-- The edge loop meets its contract whenever the nested _visit calls at
the same fuel meet theirs. -/
theorem edges_spec (g : List (String × List String)) (fuel : Nat)
    (hvisit : ∀ v' s', VisitPre g fuel v' s' →
      VisitPost g v' s' (visit g fuel v' s')) :
    ∀ (ws : List String) (v : String) (s : TarjanSt),
      EdgesPre g fuel v ws s → EdgesPost g v ws s (visitEdges g fuel v ws s) := by
  intro ws
  induction ws with
  | nil =>
    intro v s hpre
    rw [visitEdges_nil]
    exact edgesPost_refl g v [] s hpre.inv
      (by intro w hw; cases hw) (by intro w hw; cases hw)
  | cons w ws' ih =>
    intro v s hpre
    rw [visitEdges_cons]
    have hstep : EdgesPost g v [w] s (edgeStep g fuel v w s) :=
      edgeStep_post g fuel v w ws' s hvisit hpre
    exact edgesPost_trans hpre.videx hstep
      (ih v (edgeStep g fuel v w s) (edgesPre_step hpre hstep))

/-- Indexing and pushing an unindexed node preserves the invariant. -/
theorem pushState_tinv (g : List (String × List String)) (v : String)
    (s : TarjanSt) (hinv : TInv g s) (hvkey : v ∈ g.map Prod.fst)
    (hvnone : s.index v = none) (hsreach : ∀ u ∈ s.stack, reach g u v) :
    TInv g (pushState v s) := by
  have hvns : v ∉ s.stack := by
    intro h
    have := hinv.stack_idx v h
    rw [hvnone] at this
    cases this
  have hvv : (pushState v s).index v = some s.counter :=
    Function.update_same _ _ _
  have hne : ∀ x, x ≠ v → (pushState v s).index x = s.index x :=
    fun x hx => Function.update_noteq hx _ _
  have hidxN : ∀ x ∈ s.stack, idxN (pushState v s) x = idxN s x := by
    intro x hx
    have hxv : x ≠ v := fun h => hvns (h ▸ hx)
    unfold idxN
    rw [hne x hxv]
  have hidxNv : idxN (pushState v s) v = s.counter := by
    unfold idxN
    rw [hvv]
    rfl
  have hset : ∀ u, Settled (pushState v s) u ↔ Settled s u := by
    intro u
    constructor
    · rintro ⟨hidx, hstk⟩
      have hmem : u ∉ v :: s.stack := hstk
      rw [List.mem_cons, not_or] at hmem
      refine ⟨?_, hmem.2⟩
      rw [← hne u hmem.1]
      exact hidx
    · rintro ⟨hidx, hstk⟩
      have huv : u ≠ v := by
        intro h
        rw [h, hvnone] at hidx
        cases hidx
      refine ⟨?_, ?_⟩
      · rw [hne u huv]
        exact hidx
      · show u ∉ v :: s.stack
        rw [List.mem_cons, not_or]
        exact ⟨huv, hstk⟩
  refine
    { idx_key := ?_, idx_lt := ?_, idx_inj := ?_, onstack_iff := ?_,
      stack_nodup := ?_, stack_idx := ?_, stack_sorted := ?_,
      stack_reach := ?_, low_wit := ?_, low_le := ?_, sccs_ok := hinv.sccs_ok,
      settled_closed := ?_, sccs_max := hinv.sccs_max, settled_grouped := ?_ }
  · intro u hu
    by_cases huv : u = v
    · exact huv ▸ hvkey
    · refine hinv.idx_key u ?_
      rw [← hne u huv]
      exact hu
  · intro u i hu
    show i < s.counter + 1
    by_cases huv : u = v
    · subst huv
      rw [hvv] at hu
      injection hu with h
      omega
    · rw [hne u huv] at hu
      exact lt_trans (hinv.idx_lt u i hu) (Nat.lt_succ_self _)
  · intro u u' i hu hu'
    by_cases huv : u = v
    · by_cases hu'v : u' = v
      · rw [huv, hu'v]
      · subst huv
        rw [hvv] at hu
        injection hu with hic
        rw [hne u' hu'v] at hu'
        rw [← hic] at hu'
        exact absurd (hinv.idx_lt u' s.counter hu') (lt_irrefl _)
    · by_cases hu'v : u' = v
      · subst hu'v
        rw [hvv] at hu'
        injection hu' with hic
        rw [hne u huv] at hu
        rw [← hic] at hu
        exact absurd (hinv.idx_lt u s.counter hu) (lt_irrefl _)
      · rw [hne u huv] at hu
        rw [hne u' hu'v] at hu'
        exact hinv.idx_inj u u' i hu hu'
  · intro x
    show x ∈ insert v s.onStack ↔ x ∈ v :: s.stack
    rw [Finset.mem_insert, List.mem_cons, hinv.onstack_iff]
  · exact List.nodup_cons.mpr ⟨hvns, hinv.stack_nodup⟩
  · intro x hx
    rcases List.mem_cons.mp hx with rfl | hxs
    · rw [hvv]
      rfl
    · have hxv : x ≠ v := fun h => hvns (h ▸ hxs)
      rw [hne x hxv]
      exact hinv.stack_idx x hxs
  · show List.Pairwise
      (fun a b => idxN (pushState v s) b < idxN (pushState v s) a) (v :: s.stack)
    refine List.pairwise_cons.mpr ⟨?_, ?_⟩
    · intro b hb
      rw [hidxN b hb, hidxNv]
      obtain ⟨j, hj⟩ := Option.isSome_iff_exists.mp (hinv.stack_idx b hb)
      unfold idxN
      rw [hj]
      exact hinv.idx_lt b j hj
    · refine List.Pairwise.imp_of_mem ?_ hinv.stack_sorted
      intro a b ha hb hab
      rw [hidxN a ha, hidxN b hb]
      exact hab
  · show List.Pairwise (fun a b => reach g b a) (v :: s.stack)
    exact List.pairwise_cons.mpr ⟨fun b hb => hsreach b hb, hinv.stack_reach⟩
  · intro x hx
    rcases List.mem_cons.mp hx with rfl | hxs
    · refine ⟨x, List.mem_cons_self x s.stack, reach_refl g x, ?_⟩
      rw [hidxNv]
      have hlv : (pushState x s).lowlink x = s.counter := Function.update_same _ _ _
      rw [hlv]
    · obtain ⟨u, hu, hru, hule⟩ := hinv.low_wit x hxs
      have hxv : x ≠ v := fun h => hvns (h ▸ hxs)
      refine ⟨u, List.mem_cons_of_mem v hu, hru, ?_⟩
      rw [hidxN u hu]
      have hlx : (pushState v s).lowlink x = s.lowlink x :=
        Function.update_noteq hxv _ _
      rw [hlx]
      exact hule
  · intro x hx
    rcases List.mem_cons.mp hx with rfl | hxs
    · have hlv : (pushState x s).lowlink x = s.counter := Function.update_same _ _ _
      rw [hlv, hidxNv]
    · have hxv : x ≠ v := fun h => hvns (h ▸ hxs)
      have hlx : (pushState v s).lowlink x = s.lowlink x :=
        Function.update_noteq hxv _ _
      rw [hlx, hidxN x hxs]
      exact hinv.low_le x hxs
  · intro u hu w hw
    exact (hset w).mpr (hinv.settled_closed u ((hset u).mp hu) w hw)
  · intro u hu x hx h1 h2
    exact hinv.settled_grouped u ((hset u).mp hu) x hx h1 h2

/-- After the push, the edge loop precondition holds for the node's full
imports_to list. -/
theorem pushState_edges_pre (g : List (String × List String)) (fuel : Nat)
    (v : String) (s : TarjanSt) (hpre : VisitPre g (fuel + 1) v s) :
    EdgesPre g fuel v (imports g v) (pushState v s) where
  inv := pushState_tinv g v s hpre.inv hpre.vkey hpre.vnone hpre.sreach
  vkey := hpre.vkey
  wsub := fun w hw => hw
  fuelok := by
    have h1 : unidx g (pushState v s) < unidx g s := by
      refine unidx_lt g s (pushState v s) v ?_ hpre.vnone ?_ hpre.vkey
      · intro u i hu
        have huv : u ≠ v := by
          intro h
          rw [h, hpre.vnone] at hu
          cases hu
        have heq : (pushState v s).index u = s.index u :=
          Function.update_noteq huv _ _
        rw [heq]
        exact hu
      · have hvv : (pushState v s).index v = some s.counter :=
          Function.update_same _ _ _
        rw [hvv]
        rfl
    have h2 := hpre.fuelok
    omega
  decomp := ⟨[], s.stack, rfl, by intro x hx; cases hx⟩
  videx := by
    have hvv : (pushState v s).index v = some s.counter :=
      Function.update_same _ _ _
    rw [hvv]
    rfl

/-- popScc splits the stack at the root v and records the popped group. -/
theorem popScc_eq (v : String) (s₂ : TarjanSt) (t2 base : List String)
    (hvnt2 : v ∉ t2) (ht2 : s₂.stack = t2 ++ v :: base) :
    popScc v s₂ =
      { s₂ with
        stack := base,
        onStack := (t2 ++ [v]).foldl (fun o x => o.erase x) s₂.onStack,
        sccs := (if (t2 ++ [v]).length ≥ 2 then s₂.sccs ++ [t2 ++ [v]]
                 else s₂.sccs) } := by
  unfold popScc
  rw [ht2, popLoop_spec v t2 hvnt2 base s₂.onStack []]
  simp

/-- A list containing two distinct members has length at least two. -/
theorem two_mem_length {l : List String} {u x : String} (hu : u ∈ l)
    (hx : x ∈ l) (hne : x ≠ u) : 2 ≤ l.length := by
  rcases l with _ | ⟨a, l'⟩
  · cases hu
  rcases l' with _ | ⟨b, l''⟩
  · have h1 := List.mem_singleton.mp hu
    have h2 := List.mem_singleton.mp hx
    rw [← h1] at h2
    exact absurd h2 hne
  · simp only [List.length_cons]
    omega

/-- The tail of the _visit body (after the push and the edge loop)
delivers the _visit postcondition. -/
theorem visit_assemble (g : List (String × List String)) (v : String)
    (s s₂ : TarjanSt) (hpre0 : TInv g s) (hvnone : s.index v = none)
    (hpost₂ : EdgesPost g v (imports g v) (pushState v s) s₂) :
    VisitPost g v s
      (if s₂.index v = some (s₂.lowlink v) then popScc v s₂ else s₂) := by
  have hvns : v ∉ s.stack := by
    intro h
    have := hpre0.stack_idx v h
    rw [hvnone] at this
    cases this
  have hs₁idxv : (pushState v s).index v = some s.counter :=
    Function.update_same _ _ _
  have hs₁lowv : (pushState v s).lowlink v = s.counter :=
    Function.update_same _ _ _
  obtain ⟨t2, ht2, hc2⟩ := hpost₂.stackext
  have ht2' : s₂.stack = t2 ++ v :: s.stack := ht2
  have hvidx₂ : s₂.index v = some s.counter := hpost₂.mono v s.counter hs₁idxv
  have hvnt2 : v ∉ t2 := by
    intro h
    have hnone := (hc2 v h).oldnone
    rw [hs₁idxv] at hnone
    cases hnone
  have hvstack₂ : v ∈ s₂.stack := by
    rw [ht2']
    exact List.mem_append_right _ (List.mem_cons_self v s.stack)
  have hlow₂le : s₂.lowlink v ≤ s.counter := by
    rw [← hs₁lowv]
    exact hpost₂.lowv
  have mono' : ∀ u i, s.index u = some i → s₂.index u = some i := by
    intro u i hu
    have huv : u ≠ v := by
      intro h
      rw [h, hvnone] at hu
      cases hu
    refine hpost₂.mono u i ?_
    have heq : (pushState v s).index u = s.index u := Function.update_noteq huv _ _
    rw [heq]
    exact hu
  have lowpres' : ∀ u, (s.index u).isSome → s₂.lowlink u = s.lowlink u := by
    intro u hu
    have huv : u ≠ v := by
      intro h
      rw [h, hvnone] at hu
      cases hu
    have heq : (pushState v s).index u = s.index u := Function.update_noteq huv _ _
    have h1 : s₂.lowlink u = (pushState v s).lowlink u := by
      refine hpost₂.lowpres u huv ?_
      rw [heq]
      exact hu
    have h2 : (pushState v s).lowlink u = s.lowlink u := Function.update_noteq huv _ _
    rw [h1, h2]
  have cnt' : s.counter < s₂.counter := by
    have h1 : (pushState v s).counter ≤ s₂.counter := hpost₂.cnt
    have h2 : s.counter + 1 ≤ s₂.counter := h1
    omega
  have newidx' : ∀ x i, s.index x = none → s₂.index x = some i → s.counter ≤ i := by
    intro x i hx hxi
    by_cases hxv : x = v
    · subst hxv
      rw [hvidx₂] at hxi
      injection hxi with h
      omega
    · have heq : (pushState v s).index x = s.index x := Function.update_noteq hxv _ _
      have hx₁ : (pushState v s).index x = none := by rw [heq]; exact hx
      have h1 := hpost₂.newidx x i hx₁ hxi
      have h2 : s.counter + 1 ≤ i := h1
      omega
  by_cases hif : s₂.index v = some (s₂.lowlink v)
  · rw [if_pos hif]
    have hviflow : s₂.lowlink v = s.counter := by
      rw [hvidx₂] at hif
      injection hif with h
      exact h.symm
    rw [popScc_eq v s₂ t2 s.stack hvnt2 ht2']
    have hs₂split : s₂.stack = (t2 ++ [v]) ++ s.stack := by
      rw [ht2']
      simp
    have hnodup₂ : ((t2 ++ [v]) ++ s.stack).Nodup := by
      rw [← hs₂split]
      exact hpost₂.inv.stack_nodup
    have hdisj : ∀ x ∈ s.stack, x ∉ t2 ++ [v] := by
      intro x hx hxin
      exact (List.disjoint_of_nodup_append hnodup₂) hxin hx
    have hTnotbase : ∀ x ∈ t2 ++ [v], x ∉ s.stack := by
      intro x hx hxs
      exact hdisj x hxs hx
    have hhighidx : ∀ x ∈ t2 ++ [v], s.counter ≤ idxN s₂ x := by
      intro x hx
      rcases List.mem_append.mp hx with hxt | hxv
      · have hx₁ : (pushState v s).index x = none := (hc2 x hxt).oldnone
        have hxs₂ : x ∈ s₂.stack := by
          rw [hs₂split]
          exact List.mem_append_left _ (List.mem_append_left _ hxt)
        obtain ⟨j, hj⟩ := Option.isSome_iff_exists.mp (hpost₂.inv.stack_idx x hxs₂)
        have h1 := hpost₂.newidx x j hx₁ hj
        have h2 : s.counter + 1 ≤ j := h1
        unfold idxN
        rw [hj]
        simp only [Option.getD_some]
        omega
      · rw [List.mem_singleton.mp hxv]
        unfold idxN
        rw [hvidx₂]
        exact le_refl _
    have hlowidx : ∀ x ∈ s.stack, idxN s₂ x < s.counter := by
      intro x hx
      obtain ⟨j, hj⟩ := Option.isSome_iff_exists.mp (hpre0.stack_idx x hx)
      have hj₂ : s₂.index x = some j := mono' x j hj
      unfold idxN
      rw [hj₂]
      exact hpre0.idx_lt x j hj
    have hTkeyidx : ∀ x ∈ t2 ++ [v], (s₂.index x).isSome := by
      intro x hx
      refine hpost₂.inv.stack_idx x ?_
      rw [hs₂split]
      exact List.mem_append_left _ hx
    have hTtargets : ∀ u ∈ t2 ++ [v], ∀ w, edgeRel g u w → (s₂.index w).isSome := by
      intro u hu w he
      rcases List.mem_append.mp hu with hut | huv
      · exact (hc2 u hut).targets w he
      · rw [List.mem_singleton.mp huv] at he
        exact hpost₂.targets w he.2.2 he.2.1
    have hTnoback : ∀ u ∈ t2 ++ [v], ∀ w, edgeRel g u w → w ∈ s₂.stack →
        w ∈ t2 ++ [v] := by
      intro u hu w he hws₂
      rw [hs₂split] at hws₂
      rcases List.mem_append.mp hws₂ with h | hbase
      · exact h
      · exfalso
        have hidxw : idxN s₂ w < s.counter := hlowidx w hbase
        have hwstk : w ∈ s₂.stack := by
          rw [hs₂split]
          exact List.mem_append_right _ hbase
        have hlowvw : s₂.lowlink v ≤ idxN s₂ w := by
          rcases List.mem_append.mp hu with hut | huv
          · exact le_trans (hc2 u hut).rootlow ((hc2 u hut).edgelow w he hwstk)
          · rw [List.mem_singleton.mp huv] at he
            exact hpost₂.rootedge w he.2.2 hwstk
        rw [hviflow] at hlowvw
        omega
    have hstep : ∀ y, ((s₂.index y).isSome ∧ y ∉ s.stack) →
        ∀ w, edgeRel g y w → ((s₂.index w).isSome ∧ w ∉ s.stack) := by
      intro y hy w he
      by_cases hys₂ : y ∈ s₂.stack
      · have hyT : y ∈ t2 ++ [v] := by
          rw [hs₂split] at hys₂
          rcases List.mem_append.mp hys₂ with h | h
          · exact h
          · exact absurd h hy.2
        refine ⟨hTtargets y hyT w he, ?_⟩
        intro hwbase
        by_cases hws₂ : w ∈ s₂.stack
        · exact hTnotbase w (hTnoback y hyT w he hws₂) hwbase
        · exact hws₂ (by rw [hs₂split]; exact List.mem_append_right _ hwbase)
      · have hwS := hpost₂.inv.settled_closed y ⟨hy.1, hys₂⟩ w he
        refine ⟨hwS.1, ?_⟩
        intro hwbase
        exact hwS.2 (by rw [hs₂split]; exact List.mem_append_right _ hwbase)
    have hclosed : ∀ y z, reach g y z → ((s₂.index y).isSome ∧ y ∉ s.stack) →
        ((s₂.index z).isSome ∧ z ∉ s.stack) := by
      intro y z hr
      induction hr with
      | refl => exact fun h => h
      | tail _ hbc ih => exact fun h => hstep _ (ih h) _ hbc
    have hTmax : ∀ u ∈ t2 ++ [v], ∀ x, reach g u x → reach g x u →
        x ∈ t2 ++ [v] := by
      intro u hu x hr1 hr2
      have hx' := hclosed u x hr1 ⟨hTkeyidx u hu, hTnotbase u hu⟩
      by_cases hxs₂ : x ∈ s₂.stack
      · rw [hs₂split] at hxs₂
        rcases List.mem_append.mp hxs₂ with h | h
        · exact h
        · exact absurd h hx'.2
      · exfalso
        have huS := settled_reach_closed g s₂ hpost₂.inv hr2 ⟨hx'.1, hxs₂⟩
        exact huS.2 (by rw [hs₂split]; exact List.mem_append_left _ hu)
    refine
      { inv := ?_
        mono := mono'
        lowpres := lowpres'
        idxv := hvidx₂
        cnt := cnt'
        newidx := newidx'
        stackext := ⟨[], rfl, by intro x hx; cases hx⟩
        lowpop := fun _ => hviflow }
    refine
      { idx_key := hpost₂.inv.idx_key
        idx_lt := hpost₂.inv.idx_lt
        idx_inj := hpost₂.inv.idx_inj
        onstack_iff := ?_
        stack_nodup := (List.nodup_append.mp hnodup₂).2.1
        stack_idx := fun x hx => hpost₂.inv.stack_idx x
          (by rw [hs₂split]; exact List.mem_append_right _ hx)
        stack_sorted := ?_
        stack_reach := ?_
        low_wit := ?_
        low_le := fun r hr => hpost₂.inv.low_le r
          (by rw [hs₂split]; exact List.mem_append_right _ hr)
        sccs_ok := ?_
        settled_closed := fun y hy w he => hstep y hy w he
        sccs_max := ?_
        settled_grouped := ?_ }
    · intro x
      show x ∈ (t2 ++ [v]).foldl (fun o y => o.erase y) s₂.onStack ↔ x ∈ s.stack
      rw [mem_foldl_erase, hpost₂.inv.onstack_iff]
      constructor
      · rintro ⟨hx₂, hnin⟩
        rw [hs₂split] at hx₂
        rcases List.mem_append.mp hx₂ with h | h
        · exact absurd h hnin
        · exact h
      · intro hx
        exact ⟨by rw [hs₂split]; exact List.mem_append_right _ hx, hdisj x hx⟩
    · have hp := hpost₂.inv.stack_sorted
      rw [hs₂split] at hp
      exact (List.pairwise_append.mp hp).2.1
    · have hp := hpost₂.inv.stack_reach
      rw [hs₂split] at hp
      exact (List.pairwise_append.mp hp).2.1
    · intro r hr
      have hrs₂ : r ∈ s₂.stack := by
        rw [hs₂split]
        exact List.mem_append_right _ hr
      obtain ⟨u, hu, hru, hule⟩ := hpost₂.inv.low_wit r hrs₂
      have hus : u ∈ s.stack := by
        rw [hs₂split] at hu
        rcases List.mem_append.mp hu with hul | hur
        · exfalso
          have h1 : s.counter ≤ idxN s₂ u := hhighidx u hul
          have h3 : s₂.lowlink r ≤ idxN s₂ r := hpost₂.inv.low_le r hrs₂
          have h4 : idxN s₂ r < s.counter := hlowidx r hr
          omega
        · exact hur
      exact ⟨u, hus, hru, hule⟩
    · intro G hG
      by_cases hlen : (t2 ++ [v]).length ≥ 2
      · rw [if_pos hlen] at hG
        rcases List.mem_append.mp hG with hold | hnew
        · exact hpost₂.inv.sccs_ok G hold
        · have hGeq : G = t2 ++ [v] := List.mem_singleton.mp hnew
          subst hGeq
          refine ⟨hlen, (List.nodup_append.mp hnodup₂).1, ?_⟩
          have hreachv : ∀ u ∈ t2 ++ [v], reach g u v := by
            intro u hu
            rcases List.mem_append.mp hu with hut | huv
            · exact stack_descend g s₂ hpost₂.inv v t2 s.stack ht2'
                (fun x hx => (hc2 x hx).lowlt) u hut
            · rw [List.mem_singleton.mp huv]
              exact reach_refl g v
          have hvreach : ∀ w ∈ t2 ++ [v], reach g v w := by
            intro w hw
            rcases List.mem_append.mp hw with hwt | hwv
            · have hp := hpost₂.inv.stack_reach
              rw [ht2'] at hp
              exact (List.pairwise_append.mp hp).2.2 w hwt v
                (List.mem_cons_self v s.stack)
            · rw [List.mem_singleton.mp hwv]
              exact reach_refl g v
          intro u hu w hw
          exact reach_trans (hreachv u hu) (hvreach w hw)
      · rw [if_neg hlen] at hG
        exact hpost₂.inv.sccs_ok G hG
    · intro G hG u huG x hr1 hr2
      by_cases hlen : (t2 ++ [v]).length ≥ 2
      · rw [if_pos hlen] at hG
        rcases List.mem_append.mp hG with hold | hnew
        · exact hpost₂.inv.sccs_max G hold u huG x hr1 hr2
        · have hGeq : G = t2 ++ [v] := List.mem_singleton.mp hnew
          subst hGeq
          exact hTmax u huG x hr1 hr2
      · rw [if_neg hlen] at hG
        exact hpost₂.inv.sccs_max G hG u huG x hr1 hr2
    · intro u hu x hxne hr1 hr2
      have hu' : (s₂.index u).isSome ∧ u ∉ s.stack := hu
      by_cases hus₂ : u ∈ s₂.stack
      · have huT : u ∈ t2 ++ [v] := by
          rw [hs₂split] at hus₂
          rcases List.mem_append.mp hus₂ with h | h
          · exact h
          · exact absurd h hu'.2
        have hxT : x ∈ t2 ++ [v] := hTmax u huT x hr1 hr2
        have hlen : (t2 ++ [v]).length ≥ 2 := two_mem_length huT hxT hxne
        refine ⟨t2 ++ [v], ?_, huT, hxT⟩
        show t2 ++ [v] ∈
          (if (t2 ++ [v]).length ≥ 2 then s₂.sccs ++ [t2 ++ [v]] else s₂.sccs)
        rw [if_pos hlen]
        exact List.mem_append_right _ (List.mem_singleton.mpr rfl)
      · obtain ⟨G, hGmem, hGu, hGx⟩ :=
          hpost₂.inv.settled_grouped u ⟨hu'.1, hus₂⟩ x hxne hr1 hr2
        refine ⟨G, ?_, hGu, hGx⟩
        show G ∈
          (if (t2 ++ [v]).length ≥ 2 then s₂.sccs ++ [t2 ++ [v]] else s₂.sccs)
        by_cases hlen : (t2 ++ [v]).length ≥ 2
        · rw [if_pos hlen]
          exact List.mem_append_left _ hGmem
        · rw [if_neg hlen]
          exact hGmem
  · rw [if_neg hif]
    refine
      { inv := hpost₂.inv
        mono := mono'
        lowpres := lowpres'
        idxv := hvidx₂
        cnt := cnt'
        newidx := newidx'
        stackext := ?_
        lowpop := ?_ }
    · refine ⟨t2 ++ [v], by rw [ht2']; simp, ?_⟩
      intro x hx
      rcases List.mem_append.mp hx with hxt | hxv
      · have hcond := hc2 x hxt
        have h₁ := hcond.oldnone
        have hxnv : x ≠ v := by
          intro h
          rw [h, hs₁idxv] at h₁
          cases h₁
        have hxs : s.index x = none := by
          have heq : (pushState v s).index x = s.index x :=
            Function.update_noteq hxnv _ _
          rw [← heq]
          exact h₁
        exact
          { oldnone := hxs
            lowlt := hcond.lowlt
            targets := hcond.targets
            rootlow := hcond.rootlow
            edgelow := hcond.edgelow }
      · have hxv' : x = v := List.mem_singleton.mp hxv
        subst hxv'
        refine
          { oldnone := hvnone
            lowlt := ?_
            targets := fun w he => hpost₂.targets w he.2.2 he.2.1
            rootlow := le_refl _
            edgelow := fun w he hw => hpost₂.rootedge w he.2.2 hw }
        have hidxv : idxN s₂ x = s.counter := by
          unfold idxN
          rw [hvidx₂]
          rfl
        rw [hidxv]
        rcases lt_or_eq_of_le hlow₂le with h | h
        · exact h
        · exfalso
          apply hif
          rw [hvidx₂, h]
    · intro hvn
      exact absurd hvstack₂ hvn

/-- _visit meets its contract at every fuel. -/
theorem visit_spec (g : List (String × List String)) :
    ∀ (fuel : Nat) (v : String) (s : TarjanSt),
      VisitPre g fuel v s → VisitPost g v s (visit g fuel v s) := by
  intro fuel
  induction fuel with
  | zero =>
    intro v s hpre
    exact absurd hpre.fuelok (Nat.not_lt_zero _)
  | succ fuel ih =>
    intro v s hpre
    rw [visit_succ]
    exact visit_assemble g v s
      (visitEdges g fuel v (imports g v) (pushState v s)) hpre.inv hpre.vnone
      (edges_spec g fuel ih (imports g v) v (pushState v s)
        (pushState_edges_pre g fuel v s hpre))

/-- A top-level _visit (started on an empty stack) leaves the stack
empty: a leftover node would carry a lowlink strictly below its index,
and its witness chain would descend indices forever. -/
theorem post_stack_empty (g : List (String × List String)) (v : String)
    (s s' : TarjanSt) (hpost : VisitPost g v s s') (hemp : s.stack = []) :
    s'.stack = [] := by
  obtain ⟨t, ht, hc⟩ := hpost.stackext
  rw [hemp, List.append_nil] at ht
  have hmain : ∀ n x, x ∈ s'.stack → idxN s' x = n → False := by
    intro n
    induction n using Nat.strong_induction_on with
    | _ n ih =>
      intro x hx hn
      have hxt : x ∈ t := by rw [← ht]; exact hx
      have hlow : s'.lowlink x < idxN s' x := (hc x hxt).lowlt
      obtain ⟨u, hu, hru, hule⟩ := hpost.inv.low_wit x hx
      exact ih (idxN s' u) (hn ▸ lt_of_le_of_lt hule hlow) u hu rfl
  rcases hstack : s'.stack with _ | ⟨x0, rest⟩
  · rfl
  · exact (hmain (idxN s' x0) x0
      (by rw [hstack]; exact List.mem_cons_self x0 rest) rfl).elim

/-- The unindexed budget never exceeds the number of hierarchy entries. -/
theorem unidx_le (g : List (String × List String)) (s : TarjanSt) :
    unidx g s ≤ g.length := by
  unfold unidx
  calc ((g.map Prod.fst).toFinset.filter (fun u => s.index u = none)).card
      ≤ (g.map Prod.fst).toFinset.card := Finset.card_filter_le _ _
    _ ≤ (g.map Prod.fst).length := (g.map Prod.fst).toFinset_card_le
    _ = g.length := List.length_map g Prod.fst

/-- The invariant (with an empty stack) is preserved across the driver
loop of find_cycles; afterwards every processed key is indexed. -/
theorem findCycles_fold_inv (g : List (String × List String)) :
    ∀ (l : List String) (s : TarjanSt), (∀ x ∈ l, x ∈ g.map Prod.fst) →
      TInv g s → s.stack = [] →
      TInv g (l.foldl
        (fun s v => if s.index v = none then visit g (g.length + 1) v s else s)
        s) ∧
      (l.foldl
        (fun s v => if s.index v = none then visit g (g.length + 1) v s else s)
        s).stack = [] ∧
      (∀ u i, s.index u = some i →
        (l.foldl
          (fun s v => if s.index v = none then visit g (g.length + 1) v s else s)
          s).index u = some i) ∧
      (∀ x ∈ l,
        ((l.foldl
          (fun s v => if s.index v = none then visit g (g.length + 1) v s else s)
          s).index x).isSome) := by
  intro l
  induction l with
  | nil =>
    intro s _ hinv hemp
    exact ⟨hinv, hemp, fun _ _ h => h, by intro x hx; cases hx⟩
  | cons x l' ih =>
    intro s hmem hinv hemp
    rw [List.foldl_cons]
    by_cases hx : s.index x = none
    · rw [if_pos hx]
      have hpre : VisitPre g (g.length + 1) x s :=
        { inv := hinv
          vkey := hmem x (List.mem_cons_self x l')
          vnone := hx
          sreach := by
            intro u hu
            rw [hemp] at hu
            cases hu
          fuelok := Nat.lt_succ_of_le (unidx_le g s) }
      have hpost := visit_spec g (g.length + 1) x s hpre
      obtain ⟨ih1, ih2, ih3, ih4⟩ := ih (visit g (g.length + 1) x s)
        (fun y hy => hmem y (List.mem_cons_of_mem x hy)) hpost.inv
        (post_stack_empty g x s _ hpost hemp)
      refine ⟨ih1, ih2, ?_, ?_⟩
      · intro u i hu
        exact ih3 u i (hpost.mono u i hu)
      · intro y hy
        rcases List.mem_cons.mp hy with rfl | hyl
        · rw [ih3 y s.counter hpost.idxv]
          rfl
        · exact ih4 y hyl
    · rw [if_neg hx]
      obtain ⟨ih1, ih2, ih3, ih4⟩ := ih s
        (fun y hy => hmem y (List.mem_cons_of_mem x hy)) hinv hemp
      refine ⟨ih1, ih2, ih3, ?_⟩
      intro y hy
      rcases List.mem_cons.mp hy with rfl | hyl
      · obtain ⟨i, hi⟩ : ∃ i, s.index y = some i := by
          rcases h : s.index y with _ | i
          · exact absurd h hx
          · exact ⟨i, rfl⟩
        rw [ih3 y i hi]
        rfl
      · exact ih4 y hyl

/-- The invariant holds in the initial state. -/
theorem tarjan_init_tinv (g : List (String × List String)) :
    TInv g TarjanSt.init where
  idx_key := by intro u hu; cases hu
  idx_lt := by intro u i hu; cases hu
  idx_inj := by intro u w i hu hw; cases hu
  onstack_iff := by intro x; constructor <;> intro h <;> cases h
  stack_nodup := List.nodup_nil
  stack_idx := by intro x hx; cases hx
  stack_sorted := List.Pairwise.nil
  stack_reach := List.Pairwise.nil
  low_wit := by intro w hw; cases hw
  low_le := by intro w hw; cases hw
  sccs_ok := by intro G hG; cases hG
  settled_closed := by
    intro u hu w he
    obtain ⟨h1, _⟩ := hu
    simp [TarjanSt.init] at h1
  sccs_max := by intro G hG; cases hG
  settled_grouped := by
    intro u hu x hx h1 h2
    obtain ⟨h3, _⟩ := hu
    simp [TarjanSt.init] at h3

/-- A duplicate-free list with at least two members holds, next to any
member, a second distinct member. -/
theorem exists_other_mem (G : List String) (hlen : 2 ≤ G.length)
    (hnd : G.Nodup) (u : String) (hu : u ∈ G) : ∃ w ∈ G, w ≠ u := by
  rcases G with _ | ⟨a, G'⟩
  · cases hu
  rcases G' with _ | ⟨b, G''⟩
  · simp at hlen
  have hab : a ≠ b := by
    intro h
    have := (List.nodup_cons.mp hnd).1
    rw [h] at this
    exact this (List.mem_cons_self b G'')
  by_cases hua : u = a
  · refine ⟨b, List.mem_cons_of_mem a (List.mem_cons_self b G''), ?_⟩
    rw [hua]
    exact fun h => hab h.symm
  · exact ⟨a, List.mem_cons_self a (b :: G''), fun h => hua h.symm⟩

/-- C5: find_cycles returns exactly the strongly connected components of
size at least two of the graph on the hierarchy's keys with imports_to
edges.  Each returned group has at least two members, no duplicates, its
members are pairwise mutually reachable, and it is maximal: any node
mutually reachable with a member belongs to the group, so every returned
group is the entire component of each of its members.  Conversely every
pair of distinct mutually reachable nodes shows up together in some
returned group, and every member of a group sits on an actual cycle, so
a node belonging to no such component appears in no returned group. -/
theorem find_cycles_components_sound (g : List (String × List String)) :
    (∀ G ∈ findCycles g, G.length ≥ 2 ∧ G.Nodup ∧
      (∀ u ∈ G, ∀ w ∈ G, reach g u w) ∧
      (∀ u ∈ G, ∀ x, reach g u x → reach g x u → x ∈ G) ∧
      (∀ u ∈ G, ∃ w, w ≠ u ∧ reach g u w ∧ reach g w u)) ∧
    (∀ u x, u ≠ x → reach g u x → reach g x u →
      ∃ G ∈ findCycles g, u ∈ G ∧ x ∈ G) := by
  obtain ⟨hinvF, hempF, hmonoF, hidxF⟩ :=
    findCycles_fold_inv g (g.map Prod.fst) TarjanSt.init (fun x hx => hx)
      (tarjan_init_tinv g) rfl
  constructor
  · intro G hG
    obtain ⟨hlen, hnd, hmut⟩ := hinvF.sccs_ok G hG
    have hmax := hinvF.sccs_max G hG
    refine ⟨hlen, hnd, hmut, hmax, ?_⟩
    intro u hu
    obtain ⟨w, hw, hwu⟩ := exists_other_mem G hlen hnd u hu
    exact ⟨w, hwu, hmut u hu w hw, hmut w hw u hu⟩
  · intro u x hne hr1 hr2
    have hukey : u ∈ g.map Prod.fst := by
      rcases Relation.ReflTransGen.cases_head hr1 with heq | ⟨b, hb, _⟩
      · exact absurd heq hne
      · exact hb.1
    have huidx := hidxF u hukey
    have hS : Settled ((g.map Prod.fst).foldl
        (fun s v => if s.index v = none then visit g (g.length + 1) v s else s)
        TarjanSt.init) u := ⟨huidx, by rw [hempF]; exact List.not_mem_nil u⟩
    obtain ⟨G, hGmem, hGu, hGx⟩ :=
      hinvF.settled_grouped u hS x (Ne.symm hne) hr1 hr2
    exact ⟨G, hGmem, hGu, hGx⟩

/-- Witness: on the two-node cycle a -> b -> a, the exactness theorem
applies: a and b are distinct and mutually reachable, so find_cycles
returns a group holding both, and the returned group [b, a] satisfies
every soundness conjunct. -/
theorem find_cycles_components_sound_witness :
    (("a" : String) ≠ "b") ∧
    reach [("a", ["b"]), ("b", ["a"])] "a" "b" ∧
    reach [("a", ["b"]), ("b", ["a"])] "b" "a" ∧
    (∃ G ∈ findCycles [("a", ["b"]), ("b", ["a"])], "a" ∈ G ∧ "b" ∈ G) ∧
    (["b", "a"] ∈ findCycles [("a", ["b"]), ("b", ["a"])]) ∧
    (∀ u ∈ ["b", "a"], ∀ w ∈ ["b", "a"],
      reach [("a", ["b"]), ("b", ["a"])] u w) := by
  have h1 : ("a" : String) ≠ "b" := by decide
  have h2 : reach [("a", ["b"]), ("b", ["a"])] "a" "b" :=
    reach_single (by refine ⟨?_, ?_, ?_⟩ <;> decide)
  have h3 : reach [("a", ["b"]), ("b", ["a"])] "b" "a" :=
    reach_single (by refine ⟨?_, ?_, ?_⟩ <;> decide)
  have hmem : ["b", "a"] ∈ findCycles [("a", ["b"]), ("b", ["a"])] := by
    have heq : findCycles [("a", ["b"]), ("b", ["a"])] = [["b", "a"]] := by
      simp only [findCycles, List.map, List.foldl, TarjanSt.init]
      simp +decide [visit_succ, visitEdges_cons, visitEdges_nil, edgeStep,
        pushState, popScc, popLoop, imports, dictGet, Function.update, idxN]
    rw [heq]
    exact List.mem_singleton.mpr rfl
  refine ⟨h1, h2, h3,
    (find_cycles_components_sound [("a", ["b"]), ("b", ["a"])]).2 "a" "b" h1 h2 h3,
    hmem,
    ((find_cycles_components_sound [("a", ["b"]), ("b", ["a"])]).1
      ["b", "a"] hmem).2.2.1⟩
